import Mathlib

/-!
Shallow embedding of the scheduling engine (`scheduler.js`) of the
dollarama-scheduler repository, together with proofs of the specification
claims about it.

Modelling conventions:
* JS numbers holding hour values are modelled as `Int`; identifiers and day
  indices as `Nat`.
* An employee's `availability` object is keyed by day name in the source;
  day names are in bijection with day indices 0..6 via the `DAYS` array, so
  availability is modelled as a function of the day index.
* JS objects used as finite maps (`assignments`, `employeeHours`, ...) are
  modelled as total functions with explicit pointwise update; keys that were
  never written hold the initial value, matching lookups of absent keys only
  ever happening for initialised keys in the source.
* `Array.prototype.sort` (guaranteed stable, deterministic comparator) is
  modelled as `List.insertionSort`, which is a stable sort; a stable sort of
  a list under a total preorder is unique, so this is the same list the
  source computes.
* Lookup tables built with `Object.fromEntries` (which keeps the last
  binding of a duplicated key) are modelled with `List.find?` (first
  binding); the two agree whenever ids are pairwise distinct, which the
  theorems assume where it matters.  Branches the source could only reach
  by crashing (a candidate id with no employee record, a tracked shift id
  outside the week) return a skip/neutral value here and are unreachable
  in the runs the theorems are about.
-/

/-- An employee record.  Fields `id, name, role, maxHours, targetHours,
availability` are exactly the fields read by `scheduler.js`; the two
employment-status flags are the optional flags of the spec data model
(§3 EmployeeProfile), consumed only by the spec-modelled restricted-status
constraint, and ignored by the code translated from `scheduler.js`. -/
structure Employee where
  id : Nat
  name : String
  role : String
  maxHours : Int
  targetHours : Int
  availability : Nat → Option (Int × Int)
  hoursRestricted : Bool := false
  restrictionExempt : Bool := false

/-- A shift template (`{id, name, start, end, role}` in the source). -/
structure ShiftTemplate where
  id : Nat
  name : String
  start : Int
  «end» : Int
  role : String

/-- A concrete shift as produced by `generateWeeklyShifts`. -/
structure Shift where
  id : Nat
  templateId : Nat
  name : String
  day : String
  dayIndex : Nat
  start : Int
  «end» : Int
  hours : Int
  role : String
deriving DecidableEq

/-- The settings bag.  `minRestHours` and `maxConsecutiveDays` are the two
settings read by `scheduler.js` (defaults 10 and 5); the remaining fields
are the policy-extension parameters of the spec settings bag (§3 Settings),
used only by the spec-modelled definitions. -/
structure Settings where
  minRestHours : Option Int := none
  maxConsecutiveDays : Option Nat := none
  restrictedStatusCap : Option Int := none
  minShiftLength : Option Int := none
  breakTriggerHours : Option Int := none
  breakLengthHours : Option ℚ := none

/-- The `DAYS` array of the source. -/
def DAYS : List String :=
  ["Monday", "Tuesday", "Wednesday", "Thursday", "Friday", "Saturday", "Sunday"]

/-- `generateWeeklyShifts`: one shift per (day, template) pair, ids assigned
by a running counter in generation order (so the id equals the position in
the generated list). -/
def generateWeeklyShifts (templates : List ShiftTemplate) : List Shift :=
  (((List.range 7).flatMap fun dayIdx => templates.map fun t => (dayIdx, t)).enum).map
    fun p =>
      { id := p.1
        templateId := p.2.2.id
        name := p.2.2.name
        day := DAYS.getD p.2.1 ""
        dayIndex := p.2.1
        start := p.2.2.start
        «end» := p.2.2.«end»
        hours := p.2.2.«end» - p.2.2.start
        role := p.2.2.role }

/-- One entry of the feasibility matrix (`buildFeasibilityMatrix` body):
role equality, availability present for the day, and the shift's window
inside the availability window (the source skips the pair when
`shift.start < avail[0] || shift.end > avail[1]`). -/
def feasiblePair (emp : Employee) (shift : Shift) : Bool :=
  emp.role == shift.role &&
    match emp.availability shift.dayIndex with
    | none => false
    | some avail => !(shift.start < avail.1 || shift.«end» > avail.2)

/-- `shiftCandidates` of `buildFeasibilityMatrix`: for the shift with the
given id, the ids of the feasible employees in employee-list order. -/
def shiftCandidates (employees : List Employee) (shifts : List Shift) : Nat → List Nat :=
  fun i =>
    match shifts.find? (fun s => s.id == i) with
    | some s => (employees.filter fun emp => feasiblePair emp s).map fun emp => emp.id
    | none => []

/-- `employeeShifts` of `buildFeasibilityMatrix` (computed by the source but
not consulted by the search). -/
def employeeShifts (shifts : List Shift) (emp : Employee) : List Nat :=
  (shifts.filter fun s => feasiblePair emp s).map fun s => s.id

/-- The mutable search state of `solve`/`assignShifts`, as explicit data. -/
structure SearchState where
  assignments : Nat → Option Nat
  employeeHours : Nat → Int
  employeeDays : Nat → Nat → Bool
  employeeShiftsByDay : Nat → Nat → Option Nat

/-- The state initialised at the top of `solve`: nothing assigned, all
hour counters 0, all day sets empty. -/
def initState : SearchState :=
  { assignments := fun _ => none
    employeeHours := fun _ => 0
    employeeDays := fun _ _ => false
    employeeShiftsByDay := fun _ _ => none }

/-- The state mutation performed when `assignShifts` commits a candidate. -/
def applyAssign (st : SearchState) (shift : Shift) (empId : Nat) : SearchState :=
  { assignments := fun k => if k = shift.id then some empId else st.assignments k
    employeeHours := fun e => if e = empId then st.employeeHours e + shift.hours else st.employeeHours e
    employeeDays := fun e d => if e = empId ∧ d = shift.dayIndex then true else st.employeeDays e d
    employeeShiftsByDay := fun e d =>
      if e = empId ∧ d = shift.dayIndex then some shift.id else st.employeeShiftsByDay e d }

/-- `checkMinRestHours`: allowed unless an already-assigned shift on the
previous day leaves `(24 - prev.end) + shift.start < minRestHours`, or one
on the next day leaves `(24 - shift.end) + next.start < minRestHours`. -/
def checkMinRestHours (shiftMap : Nat → Option Shift) (byDay : Nat → Option Nat)
    (shift : Shift) (minRestHours : Int) : Bool :=
  (if 1 ≤ shift.dayIndex then
      match byDay (shift.dayIndex - 1) with
      | some prevId =>
        match shiftMap prevId with
        | some prevShift => decide (minRestHours ≤ (24 - prevShift.«end») + shift.start)
        | none => true
      | none => true
    else true) &&
  (if shift.dayIndex + 1 < 7 then
      match byDay (shift.dayIndex + 1) with
      | some nextId =>
        match shiftMap nextId with
        | some nextShift => decide (minRestHours ≤ (24 - shift.«end») + nextShift.start)
        | none => true
      | none => true
    else true)

/-- The streak fold of `checkMaxConsecutiveDays`: longest run of marked
days, scanning days 0..6 in order. -/
def maxStreak (days : Nat → Bool) : Nat :=
  ((List.range 7).foldl
    (fun acc i => if days i then (max acc.1 (acc.2 + 1), acc.2 + 1) else (acc.1, 0))
    (0, 0)).1

/-- `checkMaxConsecutiveDays`: simulate adding the candidate day, then
require the longest streak over the 7-day week to stay within the bound. -/
def checkMaxConsecutiveDays (days : Nat → Bool) (dayIndex : Nat)
    (maxConsecutiveDays : Nat) : Bool :=
  maxStreak (fun d => days d || d == dayIndex) ≤ maxConsecutiveDays

/-- The target-hours gap used to order candidates
(`emp.targetHours - employeeHours[id]`). -/
def gapOf (employees : List Employee) (hours : Nat → Int) (i : Nat) : Int :=
  (((employees.find? fun e => e.id == i).map fun e => e.targetHours).getD 0) - hours i

/-- Candidate order: `a` may precede `b` when `a`'s gap is at least `b`'s
(the source comparator `gapB - gapA`, descending gap). -/
def candLe (employees : List Employee) (hours : Nat → Int) : Nat → Nat → Prop :=
  fun a b => gapOf employees hours b ≤ gapOf employees hours a

instance (employees : List Employee) (hours : Nat → Int) :
    DecidableRel (candLe employees hours) :=
  fun _ _ => Int.decLe _ _

/-- The stable descending-gap sort of a candidate list
(`[...candidates].sort((a, b) => gapB - gapA)`). -/
def sortedCandidates (employees : List Employee) (hours : Nat → Int)
    (cands : List Nat) : List Nat :=
  cands.insertionSort (candLe employees hours)

/-- Shift order: `a` may precede `b` when `a` has at most as many
candidates (the source comparator `lenA - lenB`, ascending). -/
def shiftLe (candLen : Nat → Nat) : Shift → Shift → Prop :=
  fun a b => candLen a.id ≤ candLen b.id

instance (candLen : Nat → Nat) : DecidableRel (shiftLe candLen) :=
  fun _ _ => Nat.decLe _ _

/-- The constraint checks 1–4 run by `assignShifts` on a candidate, with the
weekly-hour cap abstracted as `capOf` (instantiated with `emp.maxHours` for
the source, and with the spec-modelled restricted cap for §4.3). -/
def passesChecks (capOf : Employee → Int) (shiftMap : Nat → Option Shift)
    (minRestHours : Int) (maxConsecutiveDays : Nat)
    (st : SearchState) (emp : Employee) (shift : Shift) : Bool :=
  !(st.employeeDays emp.id shift.dayIndex) &&
  decide (st.employeeHours emp.id + shift.hours ≤ capOf emp) &&
  checkMinRestHours shiftMap (st.employeeShiftsByDay emp.id) shift minRestHours &&
  checkMaxConsecutiveDays (st.employeeDays emp.id) shift.dayIndex maxConsecutiveDays

/-- `assignShifts`, with the weekly cap abstracted as `capOf`: backtracking
over the remaining shift list; for each shift, candidates are tried in
stable descending-gap order, each passing candidate is committed and the
rest of the list is solved recursively, the next candidate being tried when
the recursion fails.  Backtracking (the `delete`/`-=` block of the source)
is the pure recursion reusing the entry state for the next candidate. -/
def assignShiftsCap (capOf : Employee → Int) (employees : List Employee)
    (shiftMap : Nat → Option Shift) (cands : Nat → List Nat)
    (minRestHours : Int) (maxConsecutiveDays : Nat) :
    List Shift → SearchState → Option SearchState
  | [] => fun st => some st
  | shift :: rest => fun st =>
    (sortedCandidates employees st.employeeHours (cands shift.id)).findSome? fun empId =>
      match employees.find? (fun e => e.id == empId) with
      | none => none
      | some emp =>
        if passesChecks capOf shiftMap minRestHours maxConsecutiveDays st emp shift then
          assignShiftsCap capOf employees shiftMap cands minRestHours maxConsecutiveDays rest
            (applyAssign st shift empId)
        else none

/-- `assignShifts` of the source: the weekly cap is `emp.maxHours`. -/
def assignShifts (employees : List Employee) (shiftMap : Nat → Option Shift)
    (cands : Nat → List Nat) (minRestHours : Int) (maxConsecutiveDays : Nat) :
    List Shift → SearchState → Option SearchState :=
  assignShiftsCap (fun emp => emp.maxHours) employees shiftMap cands minRestHours
    maxConsecutiveDays

/-- `solve` up to its final projection: shift map by id, shifts sorted by
ascending candidate count (stable), then the backtracking assignment from
the fresh initial state. -/
def solveState (employees : List Employee) (shifts : List Shift)
    (cands : Nat → List Nat) (minRestHours : Int) (maxConsecutiveDays : Nat) :
    Option SearchState :=
  let shiftMap := fun i => shifts.find? fun s => s.id == i
  let shiftOrder := shifts.insertionSort (shiftLe fun i => (cands i).length)
  assignShifts employees shiftMap cands minRestHours maxConsecutiveDays shiftOrder initState

/-- `solve`: the assignment map on success, `none` on exhaustion. -/
def solve (employees : List Employee) (shifts : List Shift)
    (cands : Nat → List Nat) (minRestHours : Int) (maxConsecutiveDays : Nat) :
    Option (Nat → Option Nat) :=
  (solveState employees shifts cands minRestHours maxConsecutiveDays).map
    fun st => st.assignments

/-- One row of the schedule document built by `buildScheduleResult`. -/
structure ScheduleRecord where
  employee : String
  employeeId : Nat
  role : String
  day : String
  dayIndex : Nat
  shiftName : String
  start : Int
  «end» : Int
  shift : String
  hours : Int
deriving DecidableEq

/-- `String(h).padStart(2, '0')` for the formatted time window. -/
def pad2 (n : Int) : String :=
  let s := toString n
  if s.length < 2 then "0" ++ s else s

/-- `buildScheduleResult`: one record per assigned shift, in original shift
order. -/
def buildScheduleResult (employees : List Employee) (shifts : List Shift)
    (assignments : Nat → Option Nat) : List ScheduleRecord :=
  shifts.filterMap fun shift =>
    match assignments shift.id with
    | none => none
    | some empId =>
      match employees.find? (fun e => e.id == empId) with
      | none => none
      | some emp =>
        some { employee := emp.name
               employeeId := emp.id
               role := emp.role
               day := shift.day
               dayIndex := shift.dayIndex
               shiftName := shift.name
               start := shift.start
               «end» := shift.«end»
               shift := pad2 shift.start ++ ":00-" ++ pad2 shift.«end» ++ ":00"
               hours := shift.hours }

/-- The `stats` object of a successful result. -/
structure ScheduleStats where
  totalShifts : Nat
  totalHours : Int
  employeesScheduled : Nat
deriving DecidableEq

/-- The aggregate statistics of `generateSchedule`'s success branch. -/
def mkStats (schedule : List ScheduleRecord) : ScheduleStats :=
  { totalShifts := schedule.length
    totalHours := (schedule.map fun s => s.hours).sum
    employeesScheduled := ((schedule.map fun s => s.employee).eraseDups).length }

/-- One row of `buildEmployeeSummary`. -/
structure EmployeeSummary where
  id : Nat
  name : String
  role : String
  scheduledHours : Int
  scheduledDays : Nat
  targetHours : Int
  maxHours : Int
deriving DecidableEq

/-- `buildEmployeeSummary`: one row per input employee, including employees
with nothing scheduled. -/
def buildEmployeeSummary (employees : List Employee)
    (schedule : List ScheduleRecord) : List EmployeeSummary :=
  employees.map fun emp =>
    let mine := schedule.filter fun s => s.employeeId == emp.id
    { id := emp.id
      name := emp.name
      role := emp.role
      scheduledHours := (mine.map fun s => s.hours).sum
      scheduledDays := ((mine.map fun s => s.day).eraseDups).length
      targetHours := emp.targetHours
      maxHours := emp.maxHours }

/-- The three outcomes of `generateSchedule` (§7 taxonomy): structural
infeasibility with the offending shifts, search exhaustion, or a full
schedule document. -/
inductive ScheduleResult where
  | unfillable (shifts : List Shift)
  | noSolution
  | success (schedule : List ScheduleRecord) (stats : ScheduleStats)
      (employees : List EmployeeSummary)
deriving DecidableEq

/-- `generateSchedule`: settings defaults, shift expansion, feasibility
analysis, the unfillable-shift gate, the search, and the result builder.
The source filters unfillable shifts by array index into `shiftCandidates`;
shift ids equal list positions by construction, so the filter by id below
is the same filter. -/
def generateSchedule (employees : List Employee) (shiftTemplates : List ShiftTemplate)
    (settings : Settings) : ScheduleResult :=
  let minRestHours := settings.minRestHours.getD 10
  let maxConsecutiveDays := settings.maxConsecutiveDays.getD 5
  let shifts := generateWeeklyShifts shiftTemplates
  let cands := shiftCandidates employees shifts
  let unfillable := shifts.filter fun s => (cands s.id).isEmpty
  if unfillable.isEmpty then
    match solve employees shifts cands minRestHours maxConsecutiveDays with
    | none => .noSolution
    | some assignments =>
      let schedule := buildScheduleResult employees shifts assignments
      .success schedule (mkStats schedule) (buildEmployeeSummary employees schedule)
  else .unfillable unfillable

/-- The hours the assignment map `A` gives to employee id `e`: the summed
durations of the shifts currently mapped to `e`. -/
def hoursFor (shifts : List Shift) (A : Nat → Option Nat) (e : Nat) : Int :=
  ((shifts.filter fun s => A s.id == some e).map fun s => s.hours).sum

/-- Restriction of a day predicate to the week. -/
def weekRestrict (f : Nat → Bool) : Fin 7 → Bool := fun i => f i.val

/-! ### The search invariant -/

/-- The invariant maintained by `assignShiftsCap` along the search.  The
first four fields are the consistency of the mutable tracking structures
with the assignment map; the rest are the scheduling constraints on the
partial assignment. -/
structure SearchInv (capOf : Employee → Int) (employees : List Employee) (shifts : List Shift)
    (minRest : Int) (maxC : Nat) (st : SearchState) : Prop where
  domain : ∀ sid e, st.assignments sid = some e → ∃ s, s ∈ shifts ∧ s.id = sid
  hours : ∀ e, st.employeeHours e = hoursFor shifts st.assignments e
  days : ∀ e d, st.employeeDays e d = true ↔
    ∃ s, s ∈ shifts ∧ st.assignments s.id = some e ∧ s.dayIndex = d
  byDay : ∀ e d sid, st.employeeShiftsByDay e d = some sid ↔
    ∃ s, s ∈ shifts ∧ st.assignments s.id = some e ∧ s.dayIndex = d ∧ s.id = sid
  oneShiftPerDay : ∀ e s1 s2, s1 ∈ shifts → s2 ∈ shifts →
    st.assignments s1.id = some e → st.assignments s2.id = some e →
    s1.dayIndex = s2.dayIndex → s1 = s2
  capOK : ∀ emp, emp ∈ employees → st.employeeHours emp.id ≤ capOf emp
  feas : ∀ s, s ∈ shifts → ∀ e, st.assignments s.id = some e →
    ∃ emp, emp ∈ employees ∧ emp.id = e ∧ feasiblePair emp s = true
  rest : ∀ e s1 s2, s1 ∈ shifts → s2 ∈ shifts →
    st.assignments s1.id = some e → st.assignments s2.id = some e →
    s2.dayIndex = s1.dayIndex + 1 → minRest ≤ (24 - s1.«end») + s2.start
  streak : ∀ e a len, 1 ≤ len →
    (∀ k, k < len → st.employeeDays e (a + k) = true) → len ≤ maxC

/-! ### Totality of the two sort orders -/

instance (candLen : Nat → Nat) : IsTotal Shift (shiftLe candLen) :=
  ⟨fun a b => Nat.le_total (candLen a.id) (candLen b.id)⟩

instance (candLen : Nat → Nat) : IsTrans Shift (shiftLe candLen) :=
  ⟨fun _ _ _ hab hbc => Nat.le_trans hab hbc⟩

instance (employees : List Employee) (hours : Nat → Int) :
    IsTotal Nat (candLe employees hours) :=
  ⟨fun a b => Int.le_total (gapOf employees hours b) (gapOf employees hours a)⟩

instance (employees : List Employee) (hours : Nat → Int) :
    IsTrans Nat (candLe employees hours) :=
  ⟨fun _ _ _ hab hbc => Int.le_trans hbc hab⟩

/-! ### Spec-modelled policy extensions

The repository's `src` holds the v4.2 engine; the restricted-status cap,
minimum-shift-length and mandated-break rules are declared by the
repository's documentation (README feature list) and the spec (§4.3, §4.5)
but their engine code is not among the source files.  The definitions below
model them from the spec's words. -/

/-- Modelled from the spec: the restricted-status weekly cap of §4.3 — "if
the employee's status flag is active and not on a recognized exemption,
treat the cap as a (typically lower) override of the weekly-hour-cap for
that employee".  The engine code applying it is missing from `src`; the
default 24 is the repository README's in-term cap. -/
def effectiveCap (settings : Settings) (emp : Employee) : Int :=
  if emp.hoursRestricted && !emp.restrictionExempt then settings.restrictedStatusCap.getD 24
  else emp.maxHours

/-- Modelled from the spec: the search of §4.4 run with the restricted-status
cap override of §4.3 in place of the plain weekly cap. -/
def solveStateRestricted (settings : Settings) (employees : List Employee)
    (shifts : List Shift) (cands : Nat → List Nat) (minRest : Int) (maxC : Nat) :
    Option SearchState :=
  assignShiftsCap (effectiveCap settings) employees (fun i => shifts.find? fun s => s.id == i)
    cands minRest maxC (shifts.insertionSort (shiftLe fun i => (cands i).length)) initState

/-- Modelled from the spec: `solve` under the restricted-status cap. -/
def solveRestricted (settings : Settings) (employees : List Employee)
    (shifts : List Shift) (cands : Nat → List Nat) (minRest : Int) (maxC : Nat) :
    Option (Nat → Option Nat) :=
  (solveStateRestricted settings employees shifts cands minRest maxC).map
    fun st => st.assignments

/-- Modelled from the spec: `generateSchedule` with the restricted-status
cap in force during search. -/
def generateScheduleRestricted (employees : List Employee)
    (shiftTemplates : List ShiftTemplate) (settings : Settings) : ScheduleResult :=
  let minRestHours := settings.minRestHours.getD 10
  let maxConsecutiveDays := settings.maxConsecutiveDays.getD 5
  let shifts := generateWeeklyShifts shiftTemplates
  let cands := shiftCandidates employees shifts
  let unfillable := shifts.filter fun s => (cands s.id).isEmpty
  if unfillable.isEmpty then
    match solveRestricted settings employees shifts cands minRestHours maxConsecutiveDays with
    | none => .noSolution
    | some assignments =>
      let schedule := buildScheduleResult employees shifts assignments
      .success schedule (mkStats schedule) (buildEmployeeSummary employees schedule)
  else .unfillable unfillable

/-- Modelled from the spec: the minimum-shift-length predicate of §4.3 —
"reject shifts shorter than the configured minimum length" (README default
4 hours).  The engine code applying it is missing from `src`. -/
def checkMinShiftLength (settings : Settings) (shift : Shift) : Bool :=
  decide (settings.minShiftLength.getD 4 ≤ shift.hours)

/-- Modelled from the spec: the constraint conjunction of the search with the
minimum-shift-length check added to the checks of the source engine. -/
def passesChecksExt (settings : Settings) (capOf : Employee → Int)
    (shiftMapF : Nat → Option Shift) (minRest : Int) (maxC : Nat)
    (st : SearchState) (emp : Employee) (shift : Shift) : Bool :=
  passesChecks capOf shiftMapF minRest maxC st emp shift &&
    checkMinShiftLength settings shift

/-- Modelled from the spec: the mandated-break flag of §4.3 — a shift whose
duration reaches the break trigger (README: 4 hours) includes an unpaid
break. -/
def hasBreakHours (settings : Settings) (hours : Int) : Bool :=
  decide (settings.breakTriggerHours.getD 4 ≤ hours)

/-- Modelled from the spec: paid hours — gross hours minus the configured
unpaid break (README: 30 minutes) when the break triggers; gross hours
otherwise. -/
def paidHours (settings : Settings) (hours : Int) : ℚ :=
  if settings.breakTriggerHours.getD 4 ≤ hours then
    (hours : ℚ) - settings.breakLengthHours.getD (1 / 2)
  else (hours : ℚ)

/-- Modelled from the spec: the Result Builder of §4.5 extended to report,
per record, the break flag and the paid hours distinct from gross hours;
the underlying records are untouched. -/
def buildScheduleResultWithBreaks (settings : Settings) (employees : List Employee)
    (shifts : List Shift) (assignments : Nat → Option Nat) :
    List (ScheduleRecord × Bool × ℚ) :=
  (buildScheduleResult employees shifts assignments).map fun r =>
    (r, hasBreakHours settings r.hours, paidHours settings r.hours)

/-! ### Concrete inputs for the witnesses -/

/-- One employee available everywhere, role `X`. -/
def wEmp : Employee :=
  { id := 1, name := "A", role := "X", maxHours := 60, targetHours := 40,
    availability := fun _ => some ((6 : Int), 22) }

/-- One morning template, role `X`. -/
def wTpl : ShiftTemplate := { id := 1, name := "Morning", start := 6, «end» := 14, role := "X" }

/-- Settings allowing a 7-day week for the single employee. -/
def wSettings : Settings := { maxConsecutiveDays := some 7 }

/-- The schedule `generateSchedule [wEmp] [wTpl] wSettings` produces. -/
def wSched : List ScheduleRecord :=
  (List.range 7).map fun d =>
    { employee := "A", employeeId := 1, role := "X", day := DAYS.getD d "",
      dayIndex := d, shiftName := "Morning", start := 6, «end» := 14,
      shift := "06:00-14:00", hours := 8 }

def wStats : ScheduleStats := ⟨7, 56, 1⟩

def wSumm : List EmployeeSummary := [⟨1, "A", "X", 56, 7, 40, 60⟩]

/-- An hours-restricted, non-exempt employee. -/
def wEmpR : Employee :=
  { id := 1, name := "R", role := "X", maxHours := 44, targetHours := 21,
    availability := fun _ => some ((6 : Int), 22), hoursRestricted := true,
    restrictionExempt := false }

/-- A short template keeping the restricted week at 21 hours. -/
def wTplR : ShiftTemplate := { id := 1, name := "Short", start := 6, «end» := 9, role := "X" }

/-- The schedule the restricted pipeline produces on `[wEmpR] [wTplR]`. -/
def wSchedR : List ScheduleRecord :=
  (List.range 7).map fun d =>
    { employee := "R", employeeId := 1, role := "X", day := DAYS.getD d "",
      dayIndex := d, shiftName := "Short", start := 6, «end» := 9,
      shift := "06:00-09:00", hours := 3 }

def wStatsR : ScheduleStats := ⟨7, 21, 1⟩

def wSummR : List EmployeeSummary := [⟨1, "R", "X", 21, 7, 21, 44⟩]

/-! ### Helper lemmas about lookups and sums -/

/-- In a list whose keys are distinct, `find?` by key returns exactly the
member with that key. -/
theorem find?_key_eq_some {α : Type} (f : α → Nat) (a : α) :
    ∀ (l : List α), (l.map f).Nodup → a ∈ l →
      l.find? (fun x => f x == f a) = some a := by
  intro l
  induction l with
  | nil => intro _ ha; cases ha
  | cons b t ih =>
    intro hnd ha
    simp only [List.map_cons, List.nodup_cons] at hnd
    rcases List.mem_cons.mp ha with rfl | hat
    · simp
    · have hba : (f b == f a) = false := by
        simp only [beq_eq_false_iff_ne, ne_eq]
        intro h
        exact hnd.1 (h ▸ List.mem_map_of_mem f hat)
      simp only [List.find?_cons, hba]
      exact ih hnd.2 hat

theorem hoursFor_cons (s : Shift) (t : List Shift) (A : Nat → Option Nat) (e : Nat) :
    hoursFor (s :: t) A e
      = (if A s.id = some e then s.hours else 0) + hoursFor t A e := by
  by_cases h : A s.id = some e
  · simp [hoursFor, List.filter_cons, h]
  · simp [hoursFor, List.filter_cons, h, beq_eq_false_iff_ne.mpr h]

theorem hoursFor_init (shifts : List Shift) (e : Nat) :
    hoursFor shifts (fun _ => none) e = 0 := by
  induction shifts with
  | nil => rfl
  | cons s t ih => simp [hoursFor_cons, ih]

/-- `hoursFor` only looks at the assignment of the listed shifts. -/
theorem hoursFor_congr (A B : Nat → Option Nat) (e : Nat) :
    ∀ (l : List Shift), (∀ s ∈ l, A s.id = B s.id) →
      hoursFor l A e = hoursFor l B e := by
  intro l
  induction l with
  | nil => intro _; rfl
  | cons s t ih =>
    intro h
    rw [hoursFor_cons, hoursFor_cons, h s (List.mem_cons_self s t),
      ih (fun s2 hs2 => h s2 (List.mem_cons_of_mem s hs2))]

/-- Updating the assignment of a not-yet-assigned shift adds exactly that
shift's duration to its employee's total and nothing to anyone else's. -/
theorem hoursFor_update (shift : Shift) (A : Nat → Option Nat) (empId e : Nat)
    (hA : A shift.id = none) :
    ∀ (l : List Shift), shift ∈ l → (l.map fun s => s.id).Nodup →
      hoursFor l (fun k => if k = shift.id then some empId else A k) e
        = hoursFor l A e + (if e = empId then shift.hours else 0) := by
  intro l
  induction l with
  | nil => intro h; cases h
  | cons s t ih =>
    intro hmem hnd
    simp only [List.map_cons, List.nodup_cons] at hnd
    rw [hoursFor_cons, hoursFor_cons]
    rcases List.mem_cons.mp hmem with rfl | hmt
    · have htail : hoursFor t (fun k => if k = shift.id then some empId else A k) e
          = hoursFor t A e := by
        apply hoursFor_congr
        intro s2 hs2
        have hne : ¬ s2.id = shift.id := by
          intro h
          exact hnd.1 (h ▸ List.mem_map_of_mem (fun s => s.id) hs2)
        simp [hne]
      rw [htail, if_pos rfl, hA]
      by_cases he : e = empId
      · subst he
        simp only [if_pos rfl]
        have hno : ¬ ((none : Option Nat) = some e) := by simp
        rw [if_neg hno]
        omega
      · have h2 : ¬ ((some empId : Option Nat) = some e) := by
          intro h
          exact he (Option.some.inj h).symm
        have h3 : ¬ ((none : Option Nat) = some e) := by simp
        rw [if_neg h2, if_neg h3, if_neg he]
        omega
    · have hne : ¬ s.id = shift.id := by
        intro h
        exact hnd.1 (h ▸ List.mem_map_of_mem (fun s => s.id) hmt)
      rw [if_neg hne, ih hmt hnd.2]
      omega

/-! ### The streak fold -/

set_option maxRecDepth 4000 in
theorem maxStreak_congr (f g : Nat → Bool) (h : ∀ d, d < 7 → f d = g d) :
    maxStreak f = maxStreak g := by
  have e0 := h 0 (by omega)
  have e1 := h 1 (by omega)
  have e2 := h 2 (by omega)
  have e3 := h 3 (by omega)
  have e4 := h 4 (by omega)
  have e5 := h 5 (by omega)
  have e6 := h 6 (by omega)
  have hr : List.range 7 = [0, 1, 2, 3, 4, 5, 6] := by decide
  simp only [maxStreak, hr, List.foldl_cons, List.foldl_nil, e0, e1, e2, e3, e4, e5, e6]

theorem maxStreak_eq_restrict (f : Nat → Bool) :
    maxStreak f = maxStreak (fun d => if h : d < 7 then weekRestrict f ⟨d, h⟩ else false) := by
  apply maxStreak_congr
  intro d hd
  simp [weekRestrict, hd]

set_option maxRecDepth 40000 in
/-- Finite check behind `maxStreak_run`: any run of marked days inside the
week is at most the computed longest streak. -/
theorem maxStreak_run_fin :
    ∀ (g : Fin 7 → Bool) (a : Fin 7) (len : Fin 8),
      a.val + len.val ≤ 7 → 1 ≤ len.val →
      (∀ j : Fin 7, a.val ≤ j.val → j.val < a.val + len.val → g j = true) →
      len.val ≤ maxStreak (fun d => if h : d < 7 then g ⟨d, h⟩ else false) := by
  decide

/-- Any run of consecutive marked days within the week bounds the streak
computation from below. -/
theorem maxStreak_run (f : Nat → Bool) (a len : Nat) (h1 : 1 ≤ len) (h7 : a + len ≤ 7)
    (hrun : ∀ k, k < len → f (a + k) = true) : len ≤ maxStreak f := by
  have ha : a < 7 := by omega
  have hl : len < 8 := by omega
  rw [maxStreak_eq_restrict f]
  have key := maxStreak_run_fin (weekRestrict f) ⟨a, ha⟩ ⟨len, hl⟩ h7 h1
  apply key
  intro j hja hjl
  have hja2 : a ≤ j.val := hja
  have hjl2 : j.val < a + len := hjl
  have hr := hrun (j.val - a) (by omega)
  have heq : a + (j.val - a) = j.val := by omega
  rw [heq] at hr
  simpa [weekRestrict] using hr

/-! ### Semantics of the constraint checks -/

theorem passesChecks_elim {capOf : Employee → Int} {shiftMapF : Nat → Option Shift}
    {minRest : Int} {maxC : Nat} {st : SearchState} {emp : Employee} {shift : Shift}
    (h : passesChecks capOf shiftMapF minRest maxC st emp shift = true) :
    st.employeeDays emp.id shift.dayIndex = false ∧
    st.employeeHours emp.id + shift.hours ≤ capOf emp ∧
    checkMinRestHours shiftMapF (st.employeeShiftsByDay emp.id) shift minRest = true ∧
    checkMaxConsecutiveDays (st.employeeDays emp.id) shift.dayIndex maxC = true := by
  simp only [passesChecks, Bool.and_eq_true, Bool.not_eq_true', decide_eq_true_eq] at h
  exact ⟨h.1.1.1, h.1.1.2, h.1.2, h.2⟩

theorem checkMinRest_prev {shiftMapF : Nat → Option Shift} {byDay : Nat → Option Nat}
    {shift : Shift} {minRest : Int}
    (h : checkMinRestHours shiftMapF byDay shift minRest = true)
    (hd : 1 ≤ shift.dayIndex) {pid : Nat} (hb : byDay (shift.dayIndex - 1) = some pid)
    {prev : Shift} (hm : shiftMapF pid = some prev) :
    minRest ≤ (24 - prev.«end») + shift.start := by
  simp only [checkMinRestHours, Bool.and_eq_true] at h
  have h1 := h.1
  rw [if_pos hd] at h1
  simp only [hb, hm, decide_eq_true_eq] at h1
  exact h1

theorem checkMinRest_next {shiftMapF : Nat → Option Shift} {byDay : Nat → Option Nat}
    {shift : Shift} {minRest : Int}
    (h : checkMinRestHours shiftMapF byDay shift minRest = true)
    (hd : shift.dayIndex + 1 < 7) {nid : Nat} (hb : byDay (shift.dayIndex + 1) = some nid)
    {next : Shift} (hm : shiftMapF nid = some next) :
    minRest ≤ (24 - shift.«end») + next.start := by
  simp only [checkMinRestHours, Bool.and_eq_true] at h
  have h2 := h.2
  rw [if_pos hd] at h2
  simp only [hb, hm, decide_eq_true_eq] at h2
  exact h2

theorem checkMinRest_reject_prev {shiftMapF : Nat → Option Shift} {byDay : Nat → Option Nat}
    {shift : Shift} {minRest : Int}
    (hd : 1 ≤ shift.dayIndex) {pid : Nat} (hb : byDay (shift.dayIndex - 1) = some pid)
    {prev : Shift} (hm : shiftMapF pid = some prev)
    (hviol : (24 - prev.«end») + shift.start < minRest) :
    checkMinRestHours shiftMapF byDay shift minRest = false := by
  have h1 : (if 1 ≤ shift.dayIndex then
      match byDay (shift.dayIndex - 1) with
      | some prevId =>
        match shiftMapF prevId with
        | some prevShift => decide (minRest ≤ (24 - prevShift.«end») + shift.start)
        | none => true
      | none => true
    else true) = false := by
    rw [if_pos hd]
    simp only [hb, hm]
    exact decide_eq_false (by omega)
  rw [checkMinRestHours, h1, Bool.false_and]

theorem checkMinRest_reject_next {shiftMapF : Nat → Option Shift} {byDay : Nat → Option Nat}
    {shift : Shift} {minRest : Int}
    (hd : shift.dayIndex + 1 < 7) {nid : Nat} (hb : byDay (shift.dayIndex + 1) = some nid)
    {next : Shift} (hm : shiftMapF nid = some next)
    (hviol : (24 - shift.«end») + next.start < minRest) :
    checkMinRestHours shiftMapF byDay shift minRest = false := by
  have h2 : (if shift.dayIndex + 1 < 7 then
      match byDay (shift.dayIndex + 1) with
      | some nextId =>
        match shiftMapF nextId with
        | some nextShift => decide (minRest ≤ (24 - shift.«end») + nextShift.start)
        | none => true
      | none => true
    else true) = false := by
    rw [if_pos hd]
    simp only [hb, hm]
    exact decide_eq_false (by omega)
  rw [checkMinRestHours, h2, Bool.and_false]

theorem checkMaxConsec_elim {days : Nat → Bool} {d maxC : Nat}
    (h : checkMaxConsecutiveDays days d maxC = true) :
    maxStreak (fun x => days x || x == d) ≤ maxC := by
  simpa [checkMaxConsecutiveDays] using h

/-- The invariant holds in the freshly initialised state. -/
theorem inv_init (capOf : Employee → Int) (employees : List Employee) (shifts : List Shift)
    (minRest : Int) (maxC : Nat)
    (hcap : ∀ emp, emp ∈ employees → 0 ≤ capOf emp) :
    SearchInv capOf employees shifts minRest maxC initState := by
  constructor
  · intro sid e h
    cases h
  · intro e
    have h0 : hoursFor shifts initState.assignments e = 0 := hoursFor_init shifts e
    rw [h0]
    rfl
  · intro e d
    simp [initState]
  · intro e d sid
    simp [initState]
  · intro e s1 s2 _ _ h
    cases h
  · intro emp hm
    exact hcap emp hm
  · intro s _ e h
    cases h
  · intro e s1 s2 _ _ h
    cases h
  · intro e a len hlen hrun
    have := hrun 0 (by omega)
    simp [initState] at this

/-- Committing one candidate that passed all four checks preserves the
search invariant. -/
theorem inv_apply
    (capOf : Employee → Int) (employees : List Employee) (shifts : List Shift)
    (shiftMapF : Nat → Option Shift) (minRest : Int) (maxC : Nat)
    (Hids : (shifts.map fun s => s.id).Nodup)
    (Hday : ∀ s, s ∈ shifts → s.dayIndex < 7)
    (Hmap : ∀ s, s ∈ shifts → shiftMapF s.id = some s)
    (Hemps : (employees.map fun e => e.id).Nodup)
    (st : SearchState) (shift : Shift) (emp : Employee)
    (hs : shift ∈ shifts) (hemp : emp ∈ employees)
    (hun : st.assignments shift.id = none)
    (hfeas : feasiblePair emp shift = true)
    (hinv : SearchInv capOf employees shifts minRest maxC st)
    (hchecks : passesChecks capOf shiftMapF minRest maxC st emp shift = true) :
    SearchInv capOf employees shifts minRest maxC (applyAssign st shift emp.id) := by
  obtain ⟨hday1, hcap1, hrest1, hstreak1⟩ := passesChecks_elim hchecks
  have hinj : ∀ s1, s1 ∈ shifts → ∀ s2, s2 ∈ shifts → s1.id = s2.id → s1 = s2 :=
    fun s1 h1 s2 h2 h => List.inj_on_of_nodup_map Hids h1 h2 h
  have hnoday : ∀ s, s ∈ shifts → st.assignments s.id = some emp.id →
      s.dayIndex ≠ shift.dayIndex := by
    intro s hsm ha hd
    have hh : st.employeeDays emp.id shift.dayIndex = true :=
      (hinv.days emp.id shift.dayIndex).mpr ⟨s, hsm, ha, hd⟩
    rw [hday1] at hh
    cases hh
  constructor
  -- domain
  · intro sid e h
    dsimp only [applyAssign] at h
    by_cases hk : sid = shift.id
    · exact ⟨shift, hs, hk.symm⟩
    · rw [if_neg hk] at h
      exact hinv.domain sid e h
  -- hours
  · intro e
    dsimp only [applyAssign]
    have hupd := hoursFor_update shift st.assignments emp.id e hun shifts hs Hids
    by_cases he : e = emp.id
    · rw [if_pos he, hupd, hinv.hours e, if_pos he]
    · rw [if_neg he, hupd, hinv.hours e, if_neg he]
      omega
  -- days
  · intro e d
    dsimp only [applyAssign]
    by_cases hed : e = emp.id ∧ d = shift.dayIndex
    · rw [if_pos hed]
      constructor
      · intro _
        refine ⟨shift, hs, ?_, hed.2.symm⟩
        rw [if_pos rfl, hed.1]
      · intro _
        rfl
    · rw [if_neg hed, hinv.days e d]
      constructor
      · rintro ⟨s, hsm, ha, hd⟩
        refine ⟨s, hsm, ?_, hd⟩
        have hk : ¬ s.id = shift.id := by
          intro h
          have hseq : s = shift := hinj s hsm shift hs h
          rw [hseq, hun] at ha
          cases ha
        rw [if_neg hk]
        exact ha
      · rintro ⟨s, hsm, ha, hd⟩
        by_cases hk : s.id = shift.id
        · exfalso
          have hseq : s = shift := hinj s hsm shift hs hk
          rw [if_pos hk] at ha
          have he : e = emp.id := (Option.some.inj ha).symm
          apply hed
          refine ⟨he, ?_⟩
          rw [← hd, hseq]
        · rw [if_neg hk] at ha
          exact ⟨s, hsm, ha, hd⟩
  -- byDay
  · intro e d sid
    dsimp only [applyAssign]
    by_cases hed : e = emp.id ∧ d = shift.dayIndex
    · rw [if_pos hed]
      constructor
      · intro h
        have hsid : sid = shift.id := (Option.some.inj h).symm
        refine ⟨shift, hs, ?_, hed.2.symm, hsid.symm⟩
        rw [if_pos rfl, hed.1]
      · rintro ⟨s, hsm, ha, hd, hid⟩
        by_cases hk : s.id = shift.id
        · rw [← hid, hk]
        · rw [if_neg hk] at ha
          exfalso
          have ha2 : st.assignments s.id = some emp.id := by
            rw [← hed.1]
            exact ha
          exact hnoday s hsm ha2 (hd.trans hed.2)
    · rw [if_neg hed, hinv.byDay e d sid]
      constructor
      · rintro ⟨s, hsm, ha, hd, hid⟩
        refine ⟨s, hsm, ?_, hd, hid⟩
        have hk : ¬ s.id = shift.id := by
          intro h
          have hseq : s = shift := hinj s hsm shift hs h
          rw [hseq, hun] at ha
          cases ha
        rw [if_neg hk]
        exact ha
      · rintro ⟨s, hsm, ha, hd, hid⟩
        by_cases hk : s.id = shift.id
        · exfalso
          have hseq : s = shift := hinj s hsm shift hs hk
          rw [if_pos hk] at ha
          have he : e = emp.id := (Option.some.inj ha).symm
          apply hed
          refine ⟨he, ?_⟩
          rw [← hd, hseq]
        · rw [if_neg hk] at ha
          exact ⟨s, hsm, ha, hd, hid⟩
  -- oneShiftPerDay
  · intro e s1 s2 h1 h2 ha1 ha2 hdd
    dsimp only [applyAssign] at ha1 ha2
    by_cases k1 : s1.id = shift.id <;> by_cases k2 : s2.id = shift.id
    · exact (hinj s1 h1 shift hs k1).trans (hinj s2 h2 shift hs k2).symm
    · exfalso
      have q1 : s1 = shift := hinj s1 h1 shift hs k1
      rw [if_pos k1] at ha1
      have he : e = emp.id := (Option.some.inj ha1).symm
      rw [if_neg k2] at ha2
      have ha2b : st.assignments s2.id = some emp.id := by
        rw [← he]
        exact ha2
      apply hnoday s2 h2 ha2b
      rw [← hdd, q1]
    · exfalso
      have q2 : s2 = shift := hinj s2 h2 shift hs k2
      rw [if_pos k2] at ha2
      have he : e = emp.id := (Option.some.inj ha2).symm
      rw [if_neg k1] at ha1
      have ha1b : st.assignments s1.id = some emp.id := by
        rw [← he]
        exact ha1
      apply hnoday s1 h1 ha1b
      rw [hdd, q2]
    · rw [if_neg k1] at ha1
      rw [if_neg k2] at ha2
      exact hinv.oneShiftPerDay e s1 s2 h1 h2 ha1 ha2 hdd
  -- capOK
  · intro emp2 hm2
    dsimp only [applyAssign]
    by_cases he : emp2.id = emp.id
    · rw [if_pos he]
      have hee : emp2 = emp := List.inj_on_of_nodup_map Hemps hm2 hemp he
      rw [hee]
      exact hcap1
    · rw [if_neg he]
      exact hinv.capOK emp2 hm2
  -- feas
  · intro s hsm e ha
    dsimp only [applyAssign] at ha
    by_cases hk : s.id = shift.id
    · have hseq : s = shift := hinj s hsm shift hs hk
      rw [if_pos hk] at ha
      have he : e = emp.id := (Option.some.inj ha).symm
      refine ⟨emp, hemp, he.symm, ?_⟩
      rw [hseq]
      exact hfeas
    · rw [if_neg hk] at ha
      exact hinv.feas s hsm e ha
  -- rest
  · intro e s1 s2 h1 h2 ha1 ha2 hadj
    dsimp only [applyAssign] at ha1 ha2
    by_cases k1 : s1.id = shift.id <;> by_cases k2 : s2.id = shift.id
    · exfalso
      have q1 : s1 = shift := hinj s1 h1 shift hs k1
      have q2 : s2 = shift := hinj s2 h2 shift hs k2
      rw [q1, q2] at hadj
      omega
    · have q1 : s1 = shift := hinj s1 h1 shift hs k1
      rw [if_pos k1] at ha1
      have he : e = emp.id := (Option.some.inj ha1).symm
      rw [if_neg k2] at ha2
      have ha2b : st.assignments s2.id = some emp.id := by
        rw [← he]
        exact ha2
      have hd2 : s2.dayIndex = shift.dayIndex + 1 := by
        rw [hadj, q1]
      have hlt : shift.dayIndex + 1 < 7 := by
        have := Hday s2 h2
        omega
      have hbd : st.employeeShiftsByDay emp.id (shift.dayIndex + 1) = some s2.id :=
        (hinv.byDay emp.id (shift.dayIndex + 1) s2.id).mpr ⟨s2, h2, ha2b, hd2, rfl⟩
      have hres := checkMinRest_next hrest1 hlt hbd (Hmap s2 h2)
      rw [q1]
      exact hres
    · have q2 : s2 = shift := hinj s2 h2 shift hs k2
      rw [if_pos k2] at ha2
      have he : e = emp.id := (Option.some.inj ha2).symm
      rw [if_neg k1] at ha1
      have ha1b : st.assignments s1.id = some emp.id := by
        rw [← he]
        exact ha1
      have hd1 : shift.dayIndex = s1.dayIndex + 1 := by
        rw [← q2]
        exact hadj
      have hge : 1 ≤ shift.dayIndex := by omega
      have hd1b : s1.dayIndex = shift.dayIndex - 1 := by omega
      have hbd : st.employeeShiftsByDay emp.id (shift.dayIndex - 1) = some s1.id :=
        (hinv.byDay emp.id (shift.dayIndex - 1) s1.id).mpr ⟨s1, h1, ha1b, hd1b, rfl⟩
      have hres := checkMinRest_prev hrest1 hge hbd (Hmap s1 h1)
      rw [q2]
      exact hres
    · rw [if_neg k1] at ha1
      rw [if_neg k2] at ha2
      exact hinv.rest e s1 s2 h1 h2 ha1 ha2 hadj
  -- streak
  · intro e a len hlen hrun
    by_cases he : e = emp.id
    · subst he
      have hpt : ∀ d, (applyAssign st shift emp.id).employeeDays emp.id d
          = (st.employeeDays emp.id d || (d == shift.dayIndex)) := by
        intro d
        dsimp only [applyAssign]
        by_cases hd : d = shift.dayIndex
        · rw [if_pos ⟨rfl, hd⟩, hd]
          simp
        · rw [if_neg (fun hh => hd hh.2)]
          simp [hd]
      have h7 : a + len ≤ 7 := by
        have hlast := hrun (len - 1) (by omega)
        rw [hpt] at hlast
        rw [Bool.or_eq_true] at hlast
        rcases hlast with hcase | hcase
        · obtain ⟨s, hsm, _, hd⟩ := (hinv.days emp.id _).mp hcase
          have := Hday s hsm
          omega
        · have hde : a + (len - 1) = shift.dayIndex := eq_of_beq hcase
          have := Hday shift hs
          omega
      have hrun2 : ∀ k, k < len →
          (fun x => st.employeeDays emp.id x || (x == shift.dayIndex)) (a + k) = true := by
        intro k hk
        have hv := hrun k hk
        rw [hpt] at hv
        exact hv
      have hrunb := maxStreak_run
        (fun x => st.employeeDays emp.id x || (x == shift.dayIndex)) a len hlen h7 hrun2
      have hmax := checkMaxConsec_elim hstreak1
      exact Nat.le_trans hrunb hmax
    · apply hinv.streak e a len hlen
      intro k hk
      have hv := hrun k hk
      dsimp only [applyAssign] at hv
      rw [if_neg (fun hh => he hh.1)] at hv
      exact hv

/-- The backtracking search preserves the invariant: any state it returns
satisfies `SearchInv` provided the input state does and the remaining
shifts are unassigned shifts of the week. -/
theorem assignShiftsCap_inv
    (capOf : Employee → Int) (employees : List Employee) (shifts : List Shift)
    (shiftMapF : Nat → Option Shift) (cands : Nat → List Nat)
    (minRest : Int) (maxC : Nat)
    (Hids : (shifts.map fun s => s.id).Nodup)
    (Hday : ∀ s, s ∈ shifts → s.dayIndex < 7)
    (Hmap : ∀ s, s ∈ shifts → shiftMapF s.id = some s)
    (Hcands : ∀ s, s ∈ shifts → ∀ eid, eid ∈ cands s.id →
      ∃ emp, emp ∈ employees ∧ emp.id = eid ∧ feasiblePair emp s = true)
    (Hemps : (employees.map fun e => e.id).Nodup) :
    ∀ (ss : List Shift) (st st' : SearchState),
      (∀ s, s ∈ ss → s ∈ shifts) →
      ((ss.map fun s => s.id).Nodup) →
      (∀ s, s ∈ ss → st.assignments s.id = none) →
      SearchInv capOf employees shifts minRest maxC st →
      assignShiftsCap capOf employees shiftMapF cands minRest maxC ss st = some st' →
      SearchInv capOf employees shifts minRest maxC st' := by
  intro ss
  induction ss with
  | nil =>
    intro st st' _ _ _ hinv hrun
    have hst : st = st' := by simpa [assignShiftsCap] using hrun
    rw [← hst]
    exact hinv
  | cons shift rest ih =>
    intro st st' hsub hnd hun hinv hrun
    simp only [assignShiftsCap] at hrun
    obtain ⟨empId, hmem, hf⟩ := List.exists_of_findSome?_eq_some hrun
    cases hfind : employees.find? (fun e => e.id == empId) with
    | none =>
      simp only [hfind] at hf
      exact Option.noConfusion hf
    | some emp =>
      simp only [hfind] at hf
      by_cases hpass : passesChecks capOf shiftMapF minRest maxC st emp shift = true
      · rw [if_pos hpass] at hf
        have hempmem : emp ∈ employees := List.mem_of_find?_eq_some hfind
        have hempid : emp.id = empId := by
          have hp := List.find?_some hfind
          simpa [beq_iff_eq] using hp
        have hmem2 : empId ∈ cands shift.id := by
          simpa [sortedCandidates] using hmem
        have hshift : shift ∈ shifts := hsub shift (List.mem_cons_self shift rest)
        obtain ⟨emp2, hm2, hid2, hfeas2⟩ := Hcands shift hshift empId hmem2
        have hee : emp2 = emp :=
          List.inj_on_of_nodup_map Hemps hm2 hempmem (by rw [hid2, hempid])
        have hfeas : feasiblePair emp shift = true := by
          rw [← hee]
          exact hfeas2
        have hun0 : st.assignments shift.id = none :=
          hun shift (List.mem_cons_self shift rest)
        have hinv2 := inv_apply capOf employees shifts shiftMapF minRest maxC
          Hids Hday Hmap Hemps st shift emp hshift hempmem hun0 hfeas hinv hpass
        rw [← hempid] at hf
        simp only [List.map_cons, List.nodup_cons] at hnd
        apply ih (applyAssign st shift emp.id) st' ?_ hnd.2 ?_ hinv2 hf
        · intro s hsm
          exact hsub s (List.mem_cons_of_mem shift hsm)
        · intro s hsm
          dsimp only [applyAssign]
          have hk : ¬ s.id = shift.id := by
            intro h
            exact hnd.1 (h ▸ List.mem_map_of_mem (fun s => s.id) hsm)
          rw [if_neg hk]
          exact hun s (List.mem_cons_of_mem shift hsm)
      · rw [if_neg hpass] at hf
        exact Option.noConfusion hf

/-! ### Structure of the generated weekly shift list -/

theorem length_flatMap_range {β : Type} (f : Nat → List β) (n : Nat)
    (hlen : ∀ d, (f d).length = n) :
    ∀ k, ((List.range k).flatMap f).length = k * n := by
  intro k
  induction k with
  | zero => simp
  | succ k ih =>
    rw [List.range_succ, List.flatMap_append, List.length_append, ih]
    simp [hlen]
    ring

theorem getElem?_flatMap_range {β : Type} (f : Nat → List β) (n : Nat)
    (hlen : ∀ d, (f d).length = n) :
    ∀ k d j, d < k → j < n → ((List.range k).flatMap f)[d * n + j]? = (f d)[j]? := by
  intro k
  induction k with
  | zero =>
    intro d j hd _
    exact absurd hd (Nat.not_lt_zero d)
  | succ k ih =>
    intro d j hd hj
    rw [List.range_succ, List.flatMap_append]
    by_cases hdk : d < k
    · rw [List.getElem?_append]
      have hlenk : ((List.range k).flatMap f).length = k * n := length_flatMap_range f n hlen k
      have e1 : (d + 1) * n = d * n + n := by ring
      have h2 : (d + 1) * n ≤ k * n := Nat.mul_le_mul_right n hdk
      have hidx : d * n + j < k * n := by omega
      rw [hlenk, if_pos hidx]
      exact ih d j hdk hj
    · have hdk2 : d = k := by omega
      subst hdk2
      have hlenk : ((List.range d).flatMap f).length = d * n := length_flatMap_range f n hlen d
      rw [List.getElem?_append_right (by omega : ((List.range d).flatMap f).length ≤ d * n + j)]
      rw [hlenk]
      have hsub : d * n + j - d * n = j := by omega
      rw [hsub]
      simp

theorem nodup_map_comp_fst {β : Type} (l : List (Nat × β)) (f : Nat × β → Shift)
    (hf : ∀ p, (f p).id = p.1) (h : (l.map Prod.fst).Nodup) :
    ((l.map f).map fun s => s.id).Nodup := by
  rw [List.map_map]
  have he : l.map ((fun s : Shift => s.id) ∘ f) = l.map Prod.fst :=
    List.map_congr_left fun p _ => hf p
  rw [he]
  exact h

/-- The ids of the generated week are pairwise distinct. -/
theorem generateWeeklyShifts_ids_nodup (ts : List ShiftTemplate) :
    ((generateWeeklyShifts ts).map fun s => s.id).Nodup := by
  unfold generateWeeklyShifts
  apply nodup_map_comp_fst
  · intro p
    rfl
  · have h1 : (((List.range 7).flatMap fun d => ts.map fun t => (d, t)).enum).map Prod.fst
        = List.range' 0 (((List.range 7).flatMap fun d => ts.map fun t => (d, t)).length) :=
      List.enumFrom_map_fst 0 _
    rw [h1, ← List.range_eq_range']
    exact List.nodup_range _

theorem generateWeeklyShifts_length (ts : List ShiftTemplate) :
    (generateWeeklyShifts ts).length = 7 * ts.length := by
  unfold generateWeeklyShifts
  rw [List.length_map, List.enum_length]
  exact length_flatMap_range _ ts.length (fun d => by simp) 7

/-- Every generated shift lies on a week day and carries its template's
fields, with duration `end − start`. -/
theorem generateWeeklyShifts_mem (ts : List ShiftTemplate) (s : Shift)
    (h : s ∈ generateWeeklyShifts ts) :
    s.dayIndex < 7 ∧ s.hours = s.«end» - s.start ∧
      ∃ t, t ∈ ts ∧ s.templateId = t.id ∧ s.name = t.name ∧ s.start = t.start ∧
        s.«end» = t.«end» ∧ s.role = t.role := by
  unfold generateWeeklyShifts at h
  obtain ⟨p, hp, rfl⟩ := List.mem_map.mp h
  obtain ⟨i, q⟩ := p
  have hp2 : q ∈ (List.range 7).flatMap fun d => ts.map fun t => (d, t) := by
    have hg := List.mem_enum_iff_getElem?.mp hp
    exact List.getElem?_mem hg
  obtain ⟨d, hd, hmem⟩ := List.mem_flatMap.mp hp2
  obtain ⟨t, ht, hteq⟩ := List.mem_map.mp hmem
  subst hteq
  refine ⟨List.mem_range.mp hd, rfl, t, ht, rfl, rfl, rfl, rfl, rfl⟩

/-- Positional description of the expander output: the shift at position
`d * n + j` is template `j` instantiated on day `d`, with id equal to its
position. -/
theorem generateWeeklyShifts_getElem (ts : List ShiftTemplate) (d j : Nat)
    (hd : d < 7) (hj : j < ts.length) :
    (generateWeeklyShifts ts)[d * ts.length + j]?
      = (ts[j]?).map fun t =>
          { id := d * ts.length + j, templateId := t.id, name := t.name,
            day := DAYS.getD d "", dayIndex := d, start := t.start, «end» := t.«end»,
            hours := t.«end» - t.start, role := t.role } := by
  unfold generateWeeklyShifts
  rw [List.getElem?_map]
  rw [show (((List.range 7).flatMap fun d => ts.map fun t => (d, t)).enum)[d * ts.length + j]?
      = ((((List.range 7).flatMap fun d => ts.map fun t => (d, t)))[d * ts.length + j]?).map
          (fun a => (d * ts.length + j, a)) from by simp]
  rw [getElem?_flatMap_range (fun d => ts.map fun t => (d, t)) ts.length (fun d => by simp)
    7 d j hd hj]
  rw [List.getElem?_map]
  cases hts : ts[j]? with
  | none => rfl
  | some t => rfl

/-! ### Feasibility analysis facts -/

/-- Every candidate of a shift is a feasible employee for it. -/
theorem shiftCandidates_spec (employees : List Employee) (shifts : List Shift)
    (Hids : (shifts.map fun s => s.id).Nodup) :
    ∀ s, s ∈ shifts → ∀ eid, eid ∈ shiftCandidates employees shifts s.id →
      ∃ emp, emp ∈ employees ∧ emp.id = eid ∧ feasiblePair emp s = true := by
  intro s hsm eid hmem
  have hfind : shifts.find? (fun x => x.id == s.id) = some s :=
    find?_key_eq_some (fun x => x.id) s shifts Hids hsm
  simp only [shiftCandidates, hfind] at hmem
  obtain ⟨emp, hemp, rfl⟩ := List.mem_map.mp hmem
  have hf := List.of_mem_filter hemp
  exact ⟨emp, List.mem_of_mem_filter hemp, rfl, hf⟩

/-! ### The invariant at the end of `solve` -/

theorem searchCap_init_inv
    (capOf : Employee → Int) (employees : List Employee) (shifts : List Shift)
    (cands : Nat → List Nat) (minRest : Int) (maxC : Nat) (st' : SearchState)
    (Hids : (shifts.map fun s => s.id).Nodup)
    (Hday : ∀ s, s ∈ shifts → s.dayIndex < 7)
    (Hcands : ∀ s, s ∈ shifts → ∀ eid, eid ∈ cands s.id →
      ∃ emp, emp ∈ employees ∧ emp.id = eid ∧ feasiblePair emp s = true)
    (Hemps : (employees.map fun e => e.id).Nodup)
    (Hcap0 : ∀ emp, emp ∈ employees → 0 ≤ capOf emp)
    (hrun : assignShiftsCap capOf employees (fun i => shifts.find? fun s => s.id == i) cands
      minRest maxC (shifts.insertionSort (shiftLe fun i => (cands i).length)) initState
      = some st') :
    SearchInv capOf employees shifts minRest maxC st' := by
  apply assignShiftsCap_inv capOf employees shifts
    (fun i => shifts.find? fun s => s.id == i) cands minRest maxC Hids Hday
    (fun s hsm => find?_key_eq_some (fun x => x.id) s shifts Hids hsm) Hcands Hemps
    (shifts.insertionSort (shiftLe fun i => (cands i).length)) initState st'
    ?_ ?_ ?_ ?_ hrun
  · intro s hsm
    exact (List.mem_insertionSort _).mp hsm
  · have hperm :=
      (List.perm_insertionSort (shiftLe fun i => (cands i).length) shifts).map fun s => s.id
    exact hperm.nodup_iff.mpr Hids
  · intro s _
    rfl
  · exact inv_init capOf employees shifts minRest maxC Hcap0

theorem solveState_inv
    (employees : List Employee) (shifts : List Shift) (cands : Nat → List Nat)
    (minRest : Int) (maxC : Nat) (st' : SearchState)
    (Hids : (shifts.map fun s => s.id).Nodup)
    (Hday : ∀ s, s ∈ shifts → s.dayIndex < 7)
    (Hcands : ∀ s, s ∈ shifts → ∀ eid, eid ∈ cands s.id →
      ∃ emp, emp ∈ employees ∧ emp.id = eid ∧ feasiblePair emp s = true)
    (Hemps : (employees.map fun e => e.id).Nodup)
    (Hcap0 : ∀ emp, emp ∈ employees → 0 ≤ emp.maxHours)
    (h : solveState employees shifts cands minRest maxC = some st') :
    SearchInv (fun e => e.maxHours) employees shifts minRest maxC st' := by
  apply searchCap_init_inv (fun e => e.maxHours) employees shifts cands minRest maxC st'
    Hids Hday Hcands Hemps Hcap0
  simpa [solveState, assignShifts] using h

/-! ### Outcome analysis of `generateSchedule` -/

/-- Ingredients of a feasible pair, unfolded: role equality and containment
of the shift window in the availability window. -/
theorem feasiblePair_elim {emp : Employee} {s : Shift} (h : feasiblePair emp s = true) :
    emp.role = s.role ∧
      ∃ a b, emp.availability s.dayIndex = some (a, b) ∧ a ≤ s.start ∧ s.«end» ≤ b := by
  unfold feasiblePair at h
  rw [Bool.and_eq_true] at h
  obtain ⟨h1, h2⟩ := h
  refine ⟨beq_iff_eq.mp h1, ?_⟩
  cases hav : emp.availability s.dayIndex with
  | none => simp [hav] at h2
  | some p =>
    obtain ⟨a, b⟩ := p
    simp only [hav, Bool.not_eq_true', Bool.or_eq_false_iff, decide_eq_false_iff_not,
      not_lt] at h2
    exact ⟨a, b, rfl, h2.1, h2.2⟩

/-- The three-way outcome of `generateSchedule`: the unfillable gate fires
exactly when some shift has an empty candidate list and then carries exactly
the unfillable shifts without consulting the search; otherwise the search
decides between `noSolution` and `success`. -/
theorem generateSchedule_trichotomy (employees : List Employee) (ts : List ShiftTemplate)
    (settings : Settings) :
    ((generateWeeklyShifts ts).filter
        (fun s => (shiftCandidates employees (generateWeeklyShifts ts) s.id).isEmpty) ≠ [] ∧
      generateSchedule employees ts settings
        = .unfillable ((generateWeeklyShifts ts).filter
            fun s => (shiftCandidates employees (generateWeeklyShifts ts) s.id).isEmpty)) ∨
    ((generateWeeklyShifts ts).filter
        (fun s => (shiftCandidates employees (generateWeeklyShifts ts) s.id).isEmpty) = [] ∧
      solve employees (generateWeeklyShifts ts)
        (shiftCandidates employees (generateWeeklyShifts ts))
        (settings.minRestHours.getD 10) (settings.maxConsecutiveDays.getD 5) = none ∧
      generateSchedule employees ts settings = .noSolution) ∨
    ((generateWeeklyShifts ts).filter
        (fun s => (shiftCandidates employees (generateWeeklyShifts ts) s.id).isEmpty) = [] ∧
      ∃ A, solve employees (generateWeeklyShifts ts)
          (shiftCandidates employees (generateWeeklyShifts ts))
          (settings.minRestHours.getD 10) (settings.maxConsecutiveDays.getD 5) = some A ∧
        generateSchedule employees ts settings
          = .success (buildScheduleResult employees (generateWeeklyShifts ts) A)
              (mkStats (buildScheduleResult employees (generateWeeklyShifts ts) A))
              (buildEmployeeSummary employees
                (buildScheduleResult employees (generateWeeklyShifts ts) A))) := by
  by_cases hu : (generateWeeklyShifts ts).filter
      (fun s => (shiftCandidates employees (generateWeeklyShifts ts) s.id).isEmpty) = []
  · cases hs : solve employees (generateWeeklyShifts ts)
        (shiftCandidates employees (generateWeeklyShifts ts))
        (settings.minRestHours.getD 10) (settings.maxConsecutiveDays.getD 5) with
    | none =>
      refine Or.inr (Or.inl ⟨hu, rfl, ?_⟩)
      simp only [generateSchedule, hu, hs, List.isEmpty_nil, if_true]
    | some A =>
      refine Or.inr (Or.inr ⟨hu, A, rfl, ?_⟩)
      simp only [generateSchedule, hu, hs, List.isEmpty_nil, if_true]
  · refine Or.inl ⟨hu, ?_⟩
    have hne : ¬ ((generateWeeklyShifts ts).filter
        (fun s => (shiftCandidates employees (generateWeeklyShifts ts) s.id).isEmpty)).isEmpty
          = true := by
      intro h
      exact hu (List.isEmpty_iff.mp h)
    simp only [generateSchedule]
    rw [if_neg hne]

/-- On success the result components are exactly the builder outputs of the
assignment map found by `solve`. -/
theorem generateSchedule_success_inv (employees : List Employee) (ts : List ShiftTemplate)
    (settings : Settings) (sched : List ScheduleRecord) (stats : ScheduleStats)
    (summ : List EmployeeSummary)
    (h : generateSchedule employees ts settings = .success sched stats summ) :
    ∃ A, solve employees (generateWeeklyShifts ts)
        (shiftCandidates employees (generateWeeklyShifts ts))
        (settings.minRestHours.getD 10) (settings.maxConsecutiveDays.getD 5) = some A ∧
      sched = buildScheduleResult employees (generateWeeklyShifts ts) A ∧
      stats = mkStats sched ∧ summ = buildEmployeeSummary employees sched := by
  rcases generateSchedule_trichotomy employees ts settings with ⟨_, he⟩ | ⟨_, _, he⟩ |
    ⟨_, A, hA, he⟩
  · rw [h] at he
    exact ScheduleResult.noConfusion he
  · rw [h] at he
    exact ScheduleResult.noConfusion he
  · rw [h] at he
    injection he with e1 e2 e3
    refine ⟨A, hA, e1, ?_, ?_⟩
    · rw [e1]
      exact e2
    · rw [e1]
      exact e3

/-- From a successful `solve`, the final state and its invariant. -/
theorem solve_inv (employees : List Employee) (ts : List ShiftTemplate)
    (minRest : Int) (maxC : Nat) (A : Nat → Option Nat)
    (Hemps : (employees.map fun e => e.id).Nodup)
    (Hcap0 : ∀ emp, emp ∈ employees → 0 ≤ emp.maxHours)
    (h : solve employees (generateWeeklyShifts ts)
      (shiftCandidates employees (generateWeeklyShifts ts)) minRest maxC = some A) :
    ∃ st', A = st'.assignments ∧
      SearchInv (fun e => e.maxHours) employees (generateWeeklyShifts ts) minRest maxC st' := by
  unfold solve at h
  cases hst : solveState employees (generateWeeklyShifts ts)
      (shiftCandidates employees (generateWeeklyShifts ts)) minRest maxC with
  | none =>
    rw [hst] at h
    exact Option.noConfusion h
  | some st' =>
    rw [hst] at h
    refine ⟨st', (Option.some.inj h).symm, ?_⟩
    apply solveState_inv employees (generateWeeklyShifts ts)
      (shiftCandidates employees (generateWeeklyShifts ts)) minRest maxC st'
      (generateWeeklyShifts_ids_nodup ts) ?_ ?_ Hemps Hcap0 hst
    · intro s hsm
      exact (generateWeeklyShifts_mem ts s hsm).1
    · exact shiftCandidates_spec employees (generateWeeklyShifts ts)
        (generateWeeklyShifts_ids_nodup ts)

/-- On success the restricted pipeline's components come from the restricted
search. -/
theorem generateScheduleRestricted_success_inv (employees : List Employee)
    (ts : List ShiftTemplate) (settings : Settings) (sched : List ScheduleRecord)
    (stats : ScheduleStats) (summ : List EmployeeSummary)
    (h : generateScheduleRestricted employees ts settings = .success sched stats summ) :
    ∃ st', solveStateRestricted settings employees (generateWeeklyShifts ts)
        (shiftCandidates employees (generateWeeklyShifts ts))
        (settings.minRestHours.getD 10) (settings.maxConsecutiveDays.getD 5) = some st' ∧
      sched = buildScheduleResult employees (generateWeeklyShifts ts) st'.assignments := by
  simp only [generateScheduleRestricted] at h
  by_cases hu : ((generateWeeklyShifts ts).filter
      (fun s => (shiftCandidates employees (generateWeeklyShifts ts) s.id).isEmpty)).isEmpty
        = true
  · rw [if_pos hu] at h
    cases hs : solveRestricted settings employees (generateWeeklyShifts ts)
        (shiftCandidates employees (generateWeeklyShifts ts))
        (settings.minRestHours.getD 10) (settings.maxConsecutiveDays.getD 5) with
    | none =>
      rw [hs] at h
      exact ScheduleResult.noConfusion h
    | some A =>
      rw [hs] at h
      injection h with e1 _ _
      unfold solveRestricted at hs
      cases hst : solveStateRestricted settings employees (generateWeeklyShifts ts)
          (shiftCandidates employees (generateWeeklyShifts ts))
          (settings.minRestHours.getD 10) (settings.maxConsecutiveDays.getD 5) with
      | none =>
        rw [hst] at hs
        exact Option.noConfusion hs
      | some st' =>
        rw [hst] at hs
        have hA : st'.assignments = A := Option.some.inj hs
        refine ⟨st', rfl, ?_⟩
        rw [hA]
        exact e1.symm
  · rw [if_neg hu] at h
    exact ScheduleResult.noConfusion h

/-- The invariant at the end of the restricted search. -/
theorem solveStateRestricted_inv (settings : Settings) (employees : List Employee)
    (ts : List ShiftTemplate) (minRest : Int) (maxC : Nat) (st' : SearchState)
    (Hemps : (employees.map fun e => e.id).Nodup)
    (Hcap0 : ∀ emp, emp ∈ employees → 0 ≤ effectiveCap settings emp)
    (h : solveStateRestricted settings employees (generateWeeklyShifts ts)
      (shiftCandidates employees (generateWeeklyShifts ts)) minRest maxC = some st') :
    SearchInv (effectiveCap settings) employees (generateWeeklyShifts ts) minRest maxC st' := by
  apply searchCap_init_inv (effectiveCap settings) employees (generateWeeklyShifts ts)
    (shiftCandidates employees (generateWeeklyShifts ts)) minRest maxC st'
    (generateWeeklyShifts_ids_nodup ts) ?_ ?_ Hemps Hcap0
  · exact h
  · intro s hsm
    exact (generateWeeklyShifts_mem ts s hsm).1
  · exact shiftCandidates_spec employees (generateWeeklyShifts ts)
      (generateWeeklyShifts_ids_nodup ts)


/-- Keys of shifts outside the remaining list are untouched by the search. -/
theorem assignShiftsCap_preserves (capOf : Employee → Int) (employees : List Employee)
    (shiftMapF : Nat → Option Shift) (cands : Nat → List Nat)
    (minRest : Int) (maxC : Nat) :
    ∀ (ss : List Shift) (st st' : SearchState),
      assignShiftsCap capOf employees shiftMapF cands minRest maxC ss st = some st' →
      ∀ k, (∀ s, s ∈ ss → s.id ≠ k) → st'.assignments k = st.assignments k := by
  intro ss
  induction ss with
  | nil =>
    intro st st' h k _
    have hst : st = st' := by simpa [assignShiftsCap] using h
    rw [← hst]
  | cons shift rest ih =>
    intro st st' h k hk
    simp only [assignShiftsCap] at h
    obtain ⟨empId, hmem, hf⟩ := List.exists_of_findSome?_eq_some h
    cases hfind : employees.find? (fun e => e.id == empId) with
    | none =>
      simp only [hfind] at hf
      exact Option.noConfusion hf
    | some emp =>
      simp only [hfind] at hf
      by_cases hpass : passesChecks capOf shiftMapF minRest maxC st emp shift = true
      · rw [if_pos hpass] at hf
        have hrest := ih (applyAssign st shift empId) st' hf k
          (fun s hs => hk s (List.mem_cons_of_mem shift hs))
        rw [hrest]
        dsimp only [applyAssign]
        rw [if_neg (fun hh => hk shift (List.mem_cons_self shift rest) hh.symm)]
      · rw [if_neg hpass] at hf
        exact Option.noConfusion hf

/-- On success the search has assigned every shift of its list. -/
theorem assignShiftsCap_complete (capOf : Employee → Int) (employees : List Employee)
    (shiftMapF : Nat → Option Shift) (cands : Nat → List Nat)
    (minRest : Int) (maxC : Nat) :
    ∀ (ss : List Shift) (st st' : SearchState),
      ((ss.map fun s => s.id).Nodup) →
      assignShiftsCap capOf employees shiftMapF cands minRest maxC ss st = some st' →
      ∀ s, s ∈ ss → ∃ e, st'.assignments s.id = some e := by
  intro ss
  induction ss with
  | nil =>
    intro st st' _ _ s hs
    cases hs
  | cons shift rest ih =>
    intro st st' hnd h s hs
    simp only [List.map_cons, List.nodup_cons] at hnd
    simp only [assignShiftsCap] at h
    obtain ⟨empId, hmem, hf⟩ := List.exists_of_findSome?_eq_some h
    cases hfind : employees.find? (fun e => e.id == empId) with
    | none =>
      simp only [hfind] at hf
      exact Option.noConfusion hf
    | some emp =>
      simp only [hfind] at hf
      by_cases hpass : passesChecks capOf shiftMapF minRest maxC st emp shift = true
      · rw [if_pos hpass] at hf
        rcases List.mem_cons.mp hs with rfl | hs2
        · refine ⟨empId, ?_⟩
          have hp := assignShiftsCap_preserves capOf employees shiftMapF cands minRest maxC
            rest (applyAssign st s empId) st' hf s.id
            (fun s2 hs2 h2 => hnd.1 (h2 ▸ List.mem_map_of_mem (fun x => x.id) hs2))
          rw [hp]
          dsimp only [applyAssign]
          rw [if_pos rfl]
        · exact ih (applyAssign st shift empId) st' hnd.2 hf s hs2
      · rw [if_neg hpass] at hf
        exact Option.noConfusion hf

/-- A successful `solve` assigns every shift of the week. -/
theorem solve_complete (employees : List Employee) (shifts : List Shift)
    (cands : Nat → List Nat) (minRest : Int) (maxC : Nat) (A : Nat → Option Nat)
    (Hids : (shifts.map fun s => s.id).Nodup)
    (h : solve employees shifts cands minRest maxC = some A) :
    ∀ s, s ∈ shifts → ∃ e, A s.id = some e := by
  unfold solve at h
  cases hst : solveState employees shifts cands minRest maxC with
  | none =>
    rw [hst] at h
    exact Option.noConfusion h
  | some st' =>
    rw [hst] at h
    have hA : st'.assignments = A := Option.some.inj h
    simp only [solveState, assignShifts] at hst
    intro s hsm
    have hnd : ((shifts.insertionSort (shiftLe fun i => (cands i).length)).map
        fun s => s.id).Nodup := by
      have hperm :=
        (List.perm_insertionSort (shiftLe fun i => (cands i).length) shifts).map fun s => s.id
      exact hperm.nodup_iff.mpr Hids
    obtain ⟨e, he⟩ := assignShiftsCap_complete (fun emp => emp.maxHours) employees
      (fun i => shifts.find? fun x => x.id == i) cands minRest maxC
      (shifts.insertionSort (shiftLe fun i => (cands i).length)) initState st' hnd hst s
      ((List.mem_insertionSort _).mpr hsm)
    exact ⟨e, hA ▸ he⟩

/-! ### The claims -/

/-- C1: for every successful run of `generateSchedule`, the produced
assignment satisfies the three structural constraints — no employee holds
two shifts with the same day index, every employee's summed assigned shift
durations stay within that employee's `maxHours`, and every assigned
(employee, shift) pair has equal roles and the shift's `[start, end)`
window contained in the employee's availability window for that day. -/
theorem claim_C1_structural
    (employees : List Employee) (ts : List ShiftTemplate) (settings : Settings)
    (sched : List ScheduleRecord) (stats : ScheduleStats) (summ : List EmployeeSummary)
    (Hemps : (employees.map fun e => e.id).Nodup)
    (Hcap0 : ∀ emp, emp ∈ employees → 0 ≤ emp.maxHours)
    (h : generateSchedule employees ts settings = .success sched stats summ) :
    ∃ A, solve employees (generateWeeklyShifts ts)
        (shiftCandidates employees (generateWeeklyShifts ts))
        (settings.minRestHours.getD 10) (settings.maxConsecutiveDays.getD 5) = some A ∧
      sched = buildScheduleResult employees (generateWeeklyShifts ts) A ∧
      (∀ e s1 s2, s1 ∈ generateWeeklyShifts ts → s2 ∈ generateWeeklyShifts ts →
        A s1.id = some e → A s2.id = some e → s1.dayIndex = s2.dayIndex → s1 = s2) ∧
      (∀ emp, emp ∈ employees →
        hoursFor (generateWeeklyShifts ts) A emp.id ≤ emp.maxHours) ∧
      (∀ s, s ∈ generateWeeklyShifts ts → ∀ e, A s.id = some e →
        ∃ emp, emp ∈ employees ∧ emp.id = e ∧ emp.role = s.role ∧
          ∃ a b, emp.availability s.dayIndex = some (a, b) ∧ a ≤ s.start ∧ s.«end» ≤ b) := by
  obtain ⟨A, hA, hsched, _, _⟩ :=
    generateSchedule_success_inv employees ts settings sched stats summ h
  obtain ⟨st', hAeq, hinv⟩ := solve_inv employees ts _ _ A Hemps Hcap0 hA
  subst hAeq
  refine ⟨st'.assignments, hA, hsched, hinv.oneShiftPerDay, ?_, ?_⟩
  · intro emp hm
    have h1 := hinv.capOK emp hm
    rw [hinv.hours emp.id] at h1
    exact h1
  · intro s hsm e hAe
    obtain ⟨emp, hm, hid, hfeas⟩ := hinv.feas s hsm e hAe
    obtain ⟨hrole, a, b, hav, h1, h2⟩ := feasiblePair_elim hfeas
    exact ⟨emp, hm, hid, hrole, a, b, hav, h1, h2⟩

/-- C2: `generateSchedule` has exactly three outcomes: when some concrete
shift has an empty candidate list it returns `UNFILLABLE_SHIFTS` carrying
exactly the unfillable shifts, independently of the search; otherwise
`NO_SOLUTION` exactly when the backtracking search is exhausted; otherwise
success with the full schedule document.  There is no partial result and no
crash (the function is total). -/
theorem claim_C2_outcomes (employees : List Employee) (ts : List ShiftTemplate)
    (settings : Settings) :
    ((generateWeeklyShifts ts).filter
        (fun s => (shiftCandidates employees (generateWeeklyShifts ts) s.id).isEmpty) ≠ [] ∧
      generateSchedule employees ts settings
        = .unfillable ((generateWeeklyShifts ts).filter
            fun s => (shiftCandidates employees (generateWeeklyShifts ts) s.id).isEmpty)) ∨
    ((generateWeeklyShifts ts).filter
        (fun s => (shiftCandidates employees (generateWeeklyShifts ts) s.id).isEmpty) = [] ∧
      solve employees (generateWeeklyShifts ts)
        (shiftCandidates employees (generateWeeklyShifts ts))
        (settings.minRestHours.getD 10) (settings.maxConsecutiveDays.getD 5) = none ∧
      generateSchedule employees ts settings = .noSolution) ∨
    ((generateWeeklyShifts ts).filter
        (fun s => (shiftCandidates employees (generateWeeklyShifts ts) s.id).isEmpty) = [] ∧
      ∃ A, solve employees (generateWeeklyShifts ts)
          (shiftCandidates employees (generateWeeklyShifts ts))
          (settings.minRestHours.getD 10) (settings.maxConsecutiveDays.getD 5) = some A ∧
        (∀ s, s ∈ generateWeeklyShifts ts → ∃ e, A s.id = some e) ∧
        generateSchedule employees ts settings
          = .success (buildScheduleResult employees (generateWeeklyShifts ts) A)
              (mkStats (buildScheduleResult employees (generateWeeklyShifts ts) A))
              (buildEmployeeSummary employees
                (buildScheduleResult employees (generateWeeklyShifts ts) A))) := by
  rcases generateSchedule_trichotomy employees ts settings with h | h | ⟨hu, A, hA, he⟩
  · exact Or.inl h
  · exact Or.inr (Or.inl h)
  · refine Or.inr (Or.inr ⟨hu, A, hA, ?_, he⟩)
    exact solve_complete employees (generateWeeklyShifts ts)
      (shiftCandidates employees (generateWeeklyShifts ts))
      (settings.minRestHours.getD 10) (settings.maxConsecutiveDays.getD 5) A
      (generateWeeklyShifts_ids_nodup ts) hA

/-- C3: the minimum-rest constraint holds in every successful schedule —
for adjacent working days of one employee the rest
`(24 − earlier.end) + later.start` is at least the configured minimum —
and the search's `checkMinRestHours` rejects a candidate in both
directions (already-assigned shift on the previous or on the next day)
whenever the bound is violated, which makes the whole check conjunction
fail. -/
theorem claim_C3_minRest
    (employees : List Employee) (ts : List ShiftTemplate) (settings : Settings)
    (sched : List ScheduleRecord) (stats : ScheduleStats) (summ : List EmployeeSummary)
    (Hemps : (employees.map fun e => e.id).Nodup)
    (Hcap0 : ∀ emp, emp ∈ employees → 0 ≤ emp.maxHours)
    (h : generateSchedule employees ts settings = .success sched stats summ) :
    (∃ A, solve employees (generateWeeklyShifts ts)
        (shiftCandidates employees (generateWeeklyShifts ts))
        (settings.minRestHours.getD 10) (settings.maxConsecutiveDays.getD 5) = some A ∧
      ∀ e s1 s2, s1 ∈ generateWeeklyShifts ts → s2 ∈ generateWeeklyShifts ts →
        A s1.id = some e → A s2.id = some e → s2.dayIndex = s1.dayIndex + 1 →
        settings.minRestHours.getD 10 ≤ (24 - s1.«end») + s2.start) ∧
    (∀ (shiftMapF : Nat → Option Shift) (byDay : Nat → Option Nat) (shift : Shift)
        (minRest : Int) (pid : Nat) (prev : Shift),
      1 ≤ shift.dayIndex → byDay (shift.dayIndex - 1) = some pid →
      shiftMapF pid = some prev → (24 - prev.«end») + shift.start < minRest →
      checkMinRestHours shiftMapF byDay shift minRest = false) ∧
    (∀ (shiftMapF : Nat → Option Shift) (byDay : Nat → Option Nat) (shift : Shift)
        (minRest : Int) (nid : Nat) (next : Shift),
      shift.dayIndex + 1 < 7 → byDay (shift.dayIndex + 1) = some nid →
      shiftMapF nid = some next → (24 - shift.«end») + next.start < minRest →
      checkMinRestHours shiftMapF byDay shift minRest = false) ∧
    (∀ (capOf : Employee → Int) (shiftMapF : Nat → Option Shift) (minRest : Int)
        (maxC : Nat) (st : SearchState) (emp : Employee) (shift : Shift),
      checkMinRestHours shiftMapF (st.employeeShiftsByDay emp.id) shift minRest = false →
      passesChecks capOf shiftMapF minRest maxC st emp shift = false) := by
  refine ⟨?_, ?_, ?_, ?_⟩
  · obtain ⟨A, hA, _, _, _⟩ :=
      generateSchedule_success_inv employees ts settings sched stats summ h
    obtain ⟨st', hAeq, hinv⟩ := solve_inv employees ts _ _ A Hemps Hcap0 hA
    subst hAeq
    exact ⟨st'.assignments, hA, hinv.rest⟩
  · intro shiftMapF byDay shift minRest pid prev hd hb hm hviol
    exact checkMinRest_reject_prev hd hb hm hviol
  · intro shiftMapF byDay shift minRest nid next hd hb hm hviol
    exact checkMinRest_reject_next hd hb hm hviol
  · intro capOf shiftMapF minRest maxC st emp shift hfail
    simp [passesChecks, hfail]

/-- C4: the maximum-consecutive-days constraint holds in every successful
schedule — no employee has a run of consecutive assigned day indices longer
than the configured maximum — with the streak computed by the 7-day scan of
`maxStreak` over the worked-day set with the candidate day added, and a
candidate whose simulated streak exceeds the bound failing the check
conjunction. -/
theorem claim_C4_maxConsecutive
    (employees : List Employee) (ts : List ShiftTemplate) (settings : Settings)
    (sched : List ScheduleRecord) (stats : ScheduleStats) (summ : List EmployeeSummary)
    (Hemps : (employees.map fun e => e.id).Nodup)
    (Hcap0 : ∀ emp, emp ∈ employees → 0 ≤ emp.maxHours)
    (h : generateSchedule employees ts settings = .success sched stats summ) :
    (∃ A, solve employees (generateWeeklyShifts ts)
        (shiftCandidates employees (generateWeeklyShifts ts))
        (settings.minRestHours.getD 10) (settings.maxConsecutiveDays.getD 5) = some A ∧
      ∀ e a len, 1 ≤ len →
        (∀ k, k < len →
          ∃ s, s ∈ generateWeeklyShifts ts ∧ A s.id = some e ∧ s.dayIndex = a + k) →
        len ≤ settings.maxConsecutiveDays.getD 5) ∧
    (∀ (days : Nat → Bool) (d maxC : Nat),
      checkMaxConsecutiveDays days d maxC = true ↔
        maxStreak (fun x => days x || x == d) ≤ maxC) ∧
    (∀ (capOf : Employee → Int) (shiftMapF : Nat → Option Shift) (minRest : Int)
        (maxC : Nat) (st : SearchState) (emp : Employee) (shift : Shift),
      checkMaxConsecutiveDays (st.employeeDays emp.id) shift.dayIndex maxC = false →
      passesChecks capOf shiftMapF minRest maxC st emp shift = false) := by
  refine ⟨?_, ?_, ?_⟩
  · obtain ⟨A, hA, _, _, _⟩ :=
      generateSchedule_success_inv employees ts settings sched stats summ h
    obtain ⟨st', hAeq, hinv⟩ := solve_inv employees ts _ _ A Hemps Hcap0 hA
    subst hAeq
    refine ⟨st'.assignments, hA, ?_⟩
    intro e a len hlen hrun
    apply hinv.streak e a len hlen
    intro k hk
    exact (hinv.days e (a + k)).mpr (hrun k hk)
  · intro days d maxC
    simp [checkMaxConsecutiveDays]
  · intro capOf shiftMapF minRest maxC st emp shift hfail
    simp [passesChecks, hfail]

/-- C5 (spec-modelled): with the restricted-status cap in force, every
successful run of the restricted pipeline keeps each hours-restricted,
non-exempt employee's summed assigned hours within the configured
restricted cap (default 24), overriding `maxHours`. -/
theorem claim_C5_restrictedCap
    (employees : List Employee) (ts : List ShiftTemplate) (settings : Settings)
    (sched : List ScheduleRecord) (stats : ScheduleStats) (summ : List EmployeeSummary)
    (Hemps : (employees.map fun e => e.id).Nodup)
    (Hcap0 : ∀ emp, emp ∈ employees → 0 ≤ effectiveCap settings emp)
    (h : generateScheduleRestricted employees ts settings = .success sched stats summ) :
    ∃ st', solveStateRestricted settings employees (generateWeeklyShifts ts)
        (shiftCandidates employees (generateWeeklyShifts ts))
        (settings.minRestHours.getD 10) (settings.maxConsecutiveDays.getD 5) = some st' ∧
      sched = buildScheduleResult employees (generateWeeklyShifts ts) st'.assignments ∧
      ∀ emp, emp ∈ employees → emp.hoursRestricted = true → emp.restrictionExempt = false →
        hoursFor (generateWeeklyShifts ts) st'.assignments emp.id
          ≤ settings.restrictedStatusCap.getD 24 := by
  obtain ⟨st', hst, hsched⟩ :=
    generateScheduleRestricted_success_inv employees ts settings sched stats summ h
  have hinv := solveStateRestricted_inv settings employees ts _ _ st' Hemps Hcap0 hst
  refine ⟨st', hst, hsched, ?_⟩
  intro emp hm hr hx
  have h1 := hinv.capOK emp hm
  rw [hinv.hours emp.id] at h1
  have hcap : effectiveCap settings emp = settings.restrictedStatusCap.getD 24 := by
    unfold effectiveCap
    rw [if_pos (by rw [hr, hx]; rfl)]
  rw [hcap] at h1
  exact h1

/-- C6 (spec-modelled): a shift shorter than the configured minimum length
fails the extended constraint conjunction, and the break-aware Result
Builder flags every record whose gross hours reach the break trigger and
reports paid hours equal to gross hours minus the configured unpaid break
(gross hours unchanged otherwise), leaving the underlying records — and so
feasibility — untouched. -/
theorem claim_C6_minLength_breaks (settings : Settings) :
    (∀ (capOf : Employee → Int) (shiftMapF : Nat → Option Shift) (minRest : Int)
        (maxC : Nat) (st : SearchState) (emp : Employee) (shift : Shift),
      shift.hours < settings.minShiftLength.getD 4 →
      passesChecksExt settings capOf shiftMapF minRest maxC st emp shift = false) ∧
    (∀ (employees : List Employee) (shifts : List Shift) (A : Nat → Option Nat),
      ((buildScheduleResultWithBreaks settings employees shifts A).map fun p => p.1)
        = buildScheduleResult employees shifts A ∧
      ∀ p, p ∈ buildScheduleResultWithBreaks settings employees shifts A →
        (p.2.1 = true ↔ settings.breakTriggerHours.getD 4 ≤ p.1.hours) ∧
        p.2.2 = (if settings.breakTriggerHours.getD 4 ≤ p.1.hours
          then (p.1.hours : ℚ) - settings.breakLengthHours.getD (1 / 2)
          else (p.1.hours : ℚ)) ∧
        (p.2.1 = true →
          p.2.2 = (p.1.hours : ℚ) - settings.breakLengthHours.getD (1 / 2))) := by
  constructor
  · intro capOf shiftMapF minRest maxC st emp shift hshort
    have hfail : checkMinShiftLength settings shift = false := by
      unfold checkMinShiftLength
      exact decide_eq_false (by omega)
    simp [passesChecksExt, hfail]
  · intro employees shifts A
    constructor
    · unfold buildScheduleResultWithBreaks
      rw [List.map_map]
      have hc : List.map ((fun p : ScheduleRecord × Bool × ℚ => p.1) ∘ fun r =>
          (r, hasBreakHours settings r.hours, paidHours settings r.hours))
          (buildScheduleResult employees shifts A)
          = List.map (fun r => r) (buildScheduleResult employees shifts A) :=
        List.map_congr_left fun r _ => rfl
      rw [hc, List.map_id']
    · intro p hp
      unfold buildScheduleResultWithBreaks at hp
      obtain ⟨r, _, rfl⟩ := List.mem_map.mp hp
      refine ⟨?_, ?_, ?_⟩
      · simp [hasBreakHours]
      · simp [paidHours]
      · intro hb
        simp only [hasBreakHours, decide_eq_true_eq] at hb
        simp [paidHours, hb]

/-- C7: the search explores shifts in ascending candidate-count order and,
for each shift, candidates in descending order of `targetHours − assigned
hours`; both orders are permutations of their inputs produced by a stable
sort, so ties keep the original relative order. -/
theorem claim_C7_ordering (employees : List Employee) (hours : Nat → Int)
    (cands : List Nat) (shifts : List Shift) (candLen : Nat → Nat) :
    ((shifts.insertionSort (shiftLe candLen)).Perm shifts ∧
      (shifts.insertionSort (shiftLe candLen)).Pairwise
        (fun a b => candLen a.id ≤ candLen b.id) ∧
      (∀ a b : Shift, candLen a.id ≤ candLen b.id → [a, b].Sublist shifts →
        [a, b].Sublist (shifts.insertionSort (shiftLe candLen)))) ∧
    ((sortedCandidates employees hours cands).Perm cands ∧
      (sortedCandidates employees hours cands).Pairwise
        (fun a b => gapOf employees hours b ≤ gapOf employees hours a) ∧
      (∀ a b : Nat, gapOf employees hours b ≤ gapOf employees hours a →
        [a, b].Sublist cands → [a, b].Sublist (sortedCandidates employees hours cands))) := by
  refine ⟨⟨List.perm_insertionSort _ _, ?_, ?_⟩, ⟨List.perm_insertionSort _ _, ?_, ?_⟩⟩
  · exact List.sorted_insertionSort (shiftLe candLen) shifts
  · intro a b hab hsub
    exact List.pair_sublist_insertionSort hab hsub
  · exact List.sorted_insertionSort (candLe employees hours) cands
  · intro a b hab hsub
    exact List.pair_sublist_insertionSort hab hsub

/-- C8: the Shift Expander yields exactly one shift per (day, template)
pair — `7 × templates.length` in total, ids pairwise distinct and equal to
generation positions, fields inherited from the template with duration
`end − start` — and an empty template list makes `generateSchedule` return
a successful empty schedule rather than fail. -/
theorem claim_C8_expander (ts : List ShiftTemplate) (employees : List Employee)
    (settings : Settings) :
    (generateWeeklyShifts ts).length = 7 * ts.length ∧
    ((generateWeeklyShifts ts).map fun s => s.id).Nodup ∧
    (∀ s, s ∈ generateWeeklyShifts ts → s.dayIndex < 7 ∧ s.hours = s.«end» - s.start ∧
      ∃ t, t ∈ ts ∧ s.templateId = t.id ∧ s.name = t.name ∧ s.start = t.start ∧
        s.«end» = t.«end» ∧ s.role = t.role) ∧
    (∀ d j, d < 7 → j < ts.length →
      (generateWeeklyShifts ts)[d * ts.length + j]?
        = (ts[j]?).map fun t =>
            { id := d * ts.length + j, templateId := t.id, name := t.name,
              day := DAYS.getD d "", dayIndex := d, start := t.start, «end» := t.«end»,
              hours := t.«end» - t.start, role := t.role }) ∧
    generateSchedule employees [] settings
      = .success [] ⟨0, 0, 0⟩ (buildEmployeeSummary employees []) := by
  refine ⟨generateWeeklyShifts_length ts, generateWeeklyShifts_ids_nodup ts, ?_, ?_, rfl⟩
  · intro s hsm
    obtain ⟨h1, h2, t, ht, h3, h4, h5, h6, h7⟩ := generateWeeklyShifts_mem ts s hsm
    exact ⟨h1, h2, t, ht, h3, h4, h5, h6, h7⟩
  · intro d j hd hj
    exact generateWeeklyShifts_getElem ts d j hd hj

/-- C9: `generateSchedule` is deterministic in the assignment it produces —
the engine is a pure function of (employees, templates, settings), so two
runs on identical inputs return the same assignment map from `solve` and
the same schedule result. -/
theorem claim_C9_deterministic (employees : List Employee) (ts : List ShiftTemplate)
    (settings : Settings) (minRest : Int) (maxC : Nat)
    (A1 A2 : Option (Nat → Option Nat)) (r1 r2 : ScheduleResult)
    (h1 : A1 = solve employees (generateWeeklyShifts ts)
      (shiftCandidates employees (generateWeeklyShifts ts)) minRest maxC)
    (h2 : A2 = solve employees (generateWeeklyShifts ts)
      (shiftCandidates employees (generateWeeklyShifts ts)) minRest maxC)
    (h3 : r1 = generateSchedule employees ts settings)
    (h4 : r2 = generateSchedule employees ts settings) :
    A1 = A2 ∧ r1 = r2 :=
  ⟨h1.trans h2.symm, h3.trans h4.symm⟩

/-- C10: the search state stays consistent — in the state a successful
search returns (and, by the inductive invariant, in the state handed to
every recursive call), every employee's hour counter equals the summed
duration of the shifts the assignment map gives them, the day set marks
exactly their assigned day indices, the per-day lookup maps each worked day
to the id of that day's shift, and every assigned key is a real shift id;
on failure the caller's state is untouched, the search state being a value
rebuilt per branch. -/
theorem claim_C10_state_consistency (employees : List Employee) (ts : List ShiftTemplate)
    (minRest : Int) (maxC : Nat) (st' : SearchState)
    (Hemps : (employees.map fun e => e.id).Nodup)
    (Hcap0 : ∀ emp, emp ∈ employees → 0 ≤ emp.maxHours)
    (h : solveState employees (generateWeeklyShifts ts)
      (shiftCandidates employees (generateWeeklyShifts ts)) minRest maxC = some st') :
    (∀ e, st'.employeeHours e = hoursFor (generateWeeklyShifts ts) st'.assignments e) ∧
    (∀ e d, st'.employeeDays e d = true ↔
      ∃ s, s ∈ generateWeeklyShifts ts ∧ st'.assignments s.id = some e ∧ s.dayIndex = d) ∧
    (∀ e d sid, st'.employeeShiftsByDay e d = some sid ↔
      ∃ s, s ∈ generateWeeklyShifts ts ∧ st'.assignments s.id = some e ∧
        s.dayIndex = d ∧ s.id = sid) ∧
    (∀ sid e, st'.assignments sid = some e →
      ∃ s, s ∈ generateWeeklyShifts ts ∧ s.id = sid) := by
  have hinv := solveState_inv employees (generateWeeklyShifts ts)
    (shiftCandidates employees (generateWeeklyShifts ts)) minRest maxC st'
    (generateWeeklyShifts_ids_nodup ts)
    (fun s hsm => (generateWeeklyShifts_mem ts s hsm).1)
    (shiftCandidates_spec employees (generateWeeklyShifts ts)
      (generateWeeklyShifts_ids_nodup ts))
    Hemps Hcap0 h
  exact ⟨hinv.hours, hinv.days, hinv.byDay, hinv.domain⟩

set_option maxRecDepth 20000 in
/-- Witness for C1 at the one-employee, one-template success run. -/
theorem claim_C1_witness :
    ∃ A, solve [wEmp] (generateWeeklyShifts [wTpl])
        (shiftCandidates [wEmp] (generateWeeklyShifts [wTpl]))
        (wSettings.minRestHours.getD 10) (wSettings.maxConsecutiveDays.getD 5) = some A ∧
      wSched = buildScheduleResult [wEmp] (generateWeeklyShifts [wTpl]) A ∧
      (∀ e s1 s2, s1 ∈ generateWeeklyShifts [wTpl] → s2 ∈ generateWeeklyShifts [wTpl] →
        A s1.id = some e → A s2.id = some e → s1.dayIndex = s2.dayIndex → s1 = s2) ∧
      (∀ emp, emp ∈ [wEmp] →
        hoursFor (generateWeeklyShifts [wTpl]) A emp.id ≤ emp.maxHours) ∧
      (∀ s, s ∈ generateWeeklyShifts [wTpl] → ∀ e, A s.id = some e →
        ∃ emp, emp ∈ [wEmp] ∧ emp.id = e ∧ emp.role = s.role ∧
          ∃ a b, emp.availability s.dayIndex = some (a, b) ∧ a ≤ s.start ∧ s.«end» ≤ b) :=
  claim_C1_structural [wEmp] [wTpl] wSettings wSched wStats wSumm (by decide) (by decide)
    (by decide)

set_option maxRecDepth 20000 in
/-- Witness for C3 at the one-employee, one-template success run. -/
theorem claim_C3_witness :
    (∃ A, solve [wEmp] (generateWeeklyShifts [wTpl])
        (shiftCandidates [wEmp] (generateWeeklyShifts [wTpl]))
        (wSettings.minRestHours.getD 10) (wSettings.maxConsecutiveDays.getD 5) = some A ∧
      ∀ e s1 s2, s1 ∈ generateWeeklyShifts [wTpl] → s2 ∈ generateWeeklyShifts [wTpl] →
        A s1.id = some e → A s2.id = some e → s2.dayIndex = s1.dayIndex + 1 →
        wSettings.minRestHours.getD 10 ≤ (24 - s1.«end») + s2.start) ∧
    (∀ (shiftMapF : Nat → Option Shift) (byDay : Nat → Option Nat) (shift : Shift)
        (minRest : Int) (pid : Nat) (prev : Shift),
      1 ≤ shift.dayIndex → byDay (shift.dayIndex - 1) = some pid →
      shiftMapF pid = some prev → (24 - prev.«end») + shift.start < minRest →
      checkMinRestHours shiftMapF byDay shift minRest = false) ∧
    (∀ (shiftMapF : Nat → Option Shift) (byDay : Nat → Option Nat) (shift : Shift)
        (minRest : Int) (nid : Nat) (next : Shift),
      shift.dayIndex + 1 < 7 → byDay (shift.dayIndex + 1) = some nid →
      shiftMapF nid = some next → (24 - shift.«end») + next.start < minRest →
      checkMinRestHours shiftMapF byDay shift minRest = false) ∧
    (∀ (capOf : Employee → Int) (shiftMapF : Nat → Option Shift) (minRest : Int)
        (maxC : Nat) (st : SearchState) (emp : Employee) (shift : Shift),
      checkMinRestHours shiftMapF (st.employeeShiftsByDay emp.id) shift minRest = false →
      passesChecks capOf shiftMapF minRest maxC st emp shift = false) :=
  claim_C3_minRest [wEmp] [wTpl] wSettings wSched wStats wSumm (by decide) (by decide)
    (by decide)

set_option maxRecDepth 20000 in
/-- Witness for C4 at the one-employee, one-template success run. -/
theorem claim_C4_witness :
    (∃ A, solve [wEmp] (generateWeeklyShifts [wTpl])
        (shiftCandidates [wEmp] (generateWeeklyShifts [wTpl]))
        (wSettings.minRestHours.getD 10) (wSettings.maxConsecutiveDays.getD 5) = some A ∧
      ∀ e a len, 1 ≤ len →
        (∀ k, k < len →
          ∃ s, s ∈ generateWeeklyShifts [wTpl] ∧ A s.id = some e ∧ s.dayIndex = a + k) →
        len ≤ wSettings.maxConsecutiveDays.getD 5) ∧
    (∀ (days : Nat → Bool) (d maxC : Nat),
      checkMaxConsecutiveDays days d maxC = true ↔
        maxStreak (fun x => days x || x == d) ≤ maxC) ∧
    (∀ (capOf : Employee → Int) (shiftMapF : Nat → Option Shift) (minRest : Int)
        (maxC : Nat) (st : SearchState) (emp : Employee) (shift : Shift),
      checkMaxConsecutiveDays (st.employeeDays emp.id) shift.dayIndex maxC = false →
      passesChecks capOf shiftMapF minRest maxC st emp shift = false) :=
  claim_C4_maxConsecutive [wEmp] [wTpl] wSettings wSched wStats wSumm (by decide) (by decide)
    (by decide)

set_option maxRecDepth 20000 in
/-- Witness for C5 at the restricted one-employee run (21 hours ≤ cap 24). -/
theorem claim_C5_witness :
    ∃ st', solveStateRestricted wSettings [wEmpR] (generateWeeklyShifts [wTplR])
        (shiftCandidates [wEmpR] (generateWeeklyShifts [wTplR]))
        (wSettings.minRestHours.getD 10) (wSettings.maxConsecutiveDays.getD 5) = some st' ∧
      wSchedR = buildScheduleResult [wEmpR] (generateWeeklyShifts [wTplR]) st'.assignments ∧
      ∀ emp, emp ∈ [wEmpR] → emp.hoursRestricted = true → emp.restrictionExempt = false →
        hoursFor (generateWeeklyShifts [wTplR]) st'.assignments emp.id
          ≤ wSettings.restrictedStatusCap.getD 24 :=
  claim_C5_restrictedCap [wEmpR] [wTplR] wSettings wSchedR wStatsR wSummR (by decide)
    (by decide) (by decide)

/-- Witness for C9: two identical runs at the concrete input agree. -/
theorem claim_C9_witness :
    solve [wEmp] (generateWeeklyShifts [wTpl])
        (shiftCandidates [wEmp] (generateWeeklyShifts [wTpl])) 10 5
      = solve [wEmp] (generateWeeklyShifts [wTpl])
          (shiftCandidates [wEmp] (generateWeeklyShifts [wTpl])) 10 5 ∧
    generateSchedule [wEmp] [wTpl] wSettings = generateSchedule [wEmp] [wTpl] wSettings :=
  claim_C9_deterministic [wEmp] [wTpl] wSettings 10 5
    (solve [wEmp] (generateWeeklyShifts [wTpl])
      (shiftCandidates [wEmp] (generateWeeklyShifts [wTpl])) 10 5)
    (solve [wEmp] (generateWeeklyShifts [wTpl])
      (shiftCandidates [wEmp] (generateWeeklyShifts [wTpl])) 10 5)
    (generateSchedule [wEmp] [wTpl] wSettings) (generateSchedule [wEmp] [wTpl] wSettings)
    rfl rfl rfl rfl

/-- Witness for C10 at the empty-template run, whose final state is the
initial state. -/
theorem claim_C10_witness :
    (∀ e, initState.employeeHours e
      = hoursFor (generateWeeklyShifts ([] : List ShiftTemplate)) initState.assignments e) ∧
    (∀ e d, initState.employeeDays e d = true ↔
      ∃ s, s ∈ generateWeeklyShifts ([] : List ShiftTemplate) ∧
        initState.assignments s.id = some e ∧ s.dayIndex = d) ∧
    (∀ e d sid, initState.employeeShiftsByDay e d = some sid ↔
      ∃ s, s ∈ generateWeeklyShifts ([] : List ShiftTemplate) ∧
        initState.assignments s.id = some e ∧ s.dayIndex = d ∧ s.id = sid) ∧
    (∀ sid e, initState.assignments sid = some e →
      ∃ s, s ∈ generateWeeklyShifts ([] : List ShiftTemplate) ∧ s.id = sid) :=
  claim_C10_state_consistency [wEmp] [] 10 7 initState (by decide) (by decide) rfl
